import Mathlib

/-!
Verification of the settings-kit reactive settings store
(src/settings-store.tsx): path resolver, structural merge engine,
state container commit pipeline, persistence construction, and sync engine.

The JavaScript values stored in a settings tree are modeled by the
inductive type JsValue below.  Conventions of the embedding:

* JavaScript undefined does not occur inside a settings tree (states are
  JSON-like); the absence of a key is modeled by Option.none wherever the
  source can observe an undefined lookup.
* Numbers are modeled as integers: the trees exercised by the claims
  contain no NaN or signed zeros, so SameValue on numbers is plain
  equality.
* Object.is compares primitives by value (SameValue) and composite values
  (objects, arrays) by reference.  The trees compared by the merge engine
  are independently constructed values (for example, deserialized imports
  or freshly pulled remote trees) that share no references, so Object.is
  on two composite values is false; this is the jsIs function below.  The
  one place where the source compares a tree with itself by reference is
  the commit pipeline root check, and there the root identity of every
  snapshot is tracked explicitly by a ghost reference id on the store
  (field stateRef / freshRef), so no information is lost.
-/

namespace SettingsKit

/-- A JavaScript value as it appears in a settings state tree: null, a
primitive, an array, or a plain object whose fields are kept in insertion
order (the order Object.entries iterates). -/
inductive JsValue where
  | vNull
  | vBool (b : Bool)
  | vNum (n : Int)
  | vStr (s : String)
  | vArr (xs : List JsValue)
  | vObj (fs : List (String × JsValue))
deriving Repr

open JsValue

/-- Source isObject (line 120): a value is a plain object exactly when
typeof is object, it is not null and not an array. -/
def isObjectV : JsValue → Bool
  | .vObj _ => true
  | _ => false

/-- Own-property lookup, first matching key (JavaScript objects have
unique keys, so on well-formed trees this is the only occurrence).
Models both part-in-current and current[part] reads; prototype-inherited
keys are not modeled. -/
def objGet (fs : List (String × JsValue)) (k : String) : Option JsValue :=
  match fs with
  | [] => none
  | (k', v) :: rest => if k' = k then some v else objGet rest k

/-- Property assignment obj[k] = v: replaces an existing key in place
(keeping its insertion position) or appends a new key at the end, which
is how JavaScript property order behaves. -/
def objSet (fs : List (String × JsValue)) (k : String) (v : JsValue) :
    List (String × JsValue) :=
  match fs with
  | [] => [(k, v)]
  | (k', v') :: rest => if k' = k then (k, v) :: rest else (k', v') :: objSet rest k v

/-- Object.is on tree values: SameValue on primitives; composite values
are compared by reference and the trees of this embedding share no
references, so two composites are never Object.is-equal (see the module
comment; root-level self-comparison is tracked by ghost ref ids
instead). -/
def jsIs : JsValue → JsValue → Bool
  | .vNull, .vNull => true
  | .vBool a, .vBool b => a == b
  | .vNum a, .vNum b => a == b
  | .vStr a, .vStr b => a == b
  | _, _ => false

/-- Object.is where the left side may be an absent lookup (undefined).
Object.is(undefined, v) is false for every tree value v, because
undefined does not occur inside trees. -/
def jsIsOpt : Option JsValue → JsValue → Bool
  | none, _ => false
  | some l, r => jsIs l r

/-- Splits a string on the separator character, like
String.prototype.split with a one-character separator: cur accumulates
the current segment in reverse. -/
def splitDotAux (cs : List Char) (cur : List Char) : List String :=
  match cs with
  | [] => [String.mk cur.reverse]
  | c :: rest =>
    if c = '.' then String.mk cur.reverse :: splitDotAux rest []
    else splitDotAux rest (c :: cur)

/-- path.split with separator the dot character (source line 125). -/
def splitDot (s : String) : List String := splitDotAux s.data []

/-- String.prototype.trim: drops leading and trailing whitespace. -/
def strTrim (s : String) : String :=
  String.mk ((s.data.dropWhile Char.isWhitespace).reverse.dropWhile
    Char.isWhitespace).reverse

/-- Source parsePath (lines 123-127): split on dots, trim each part,
drop empty parts. -/
def parsePath (path : String) : List String :=
  ((splitDot path).map strTrim).filter (fun p => p ≠ "")

/-- The segment walk of getByPath (lines 135-144): returns none
(undefined) the first time the current value is not a plain object or
lacks the segment key. -/
def getParts : JsValue → List String → Option JsValue
  | v, [] => some v
  | .vObj fs, k :: rest =>
    match objGet fs k with
    | some next => getParts next rest
    | none => none
  | _, _ :: _ => none

/-- Source getByPath (lines 129-145): an empty parsed path returns the
whole input; otherwise walk the segments. -/
def getByPath (input : JsValue) (path : String) : Option JsValue :=
  match parsePath path with
  | [] => some input
  | parts => getParts input parts

/-- The write loop of setByPath (lines 156-164): shallow-clone the
mapping at each segment (an existing non-object branch is replaced by an
empty object), then assign the value at the final segment. -/
def setParts (fields : List (String × JsValue)) :
    List String → JsValue → List (String × JsValue)
  | [], _ => fields
  | [last], value => objSet fields last value
  | key :: rest, value =>
    let branch : List (String × JsValue) :=
      match objGet fields key with
      | some (.vObj fs) => fs
      | _ => []
    objSet fields key (.vObj (setParts branch rest value))

/-- The fields of the store state; the state is always a plain object
(TState extends Record of string to unknown), so the non-object cases
are unreachable in the store. -/
def fieldsOf : JsValue → List (String × JsValue)
  | .vObj fs => fs
  | _ => []

/-- Source setByPath (lines 147-166): an empty parsed path returns the
input state itself (the very same object); otherwise a fresh root clone
with the path written.  Branches not on the path are reused. -/
def setByPath (state : JsValue) (path : String) (value : JsValue) : JsValue :=
  match parsePath path with
  | [] => state
  | parts => .vObj (setParts (fieldsOf state) parts value)

theorem objGet_objSet_self (fs : List (String × JsValue)) (k : String) (v : JsValue) :
    objGet (objSet fs k v) k = some v := by
  induction fs with
  | nil => simp [objGet, objSet]
  | cons p rest ih =>
    obtain ⟨k', v'⟩ := p
    by_cases h : k' = k
    · simp [objGet, objSet, h]
    · simp [objGet, objSet, h, ih]

theorem objGet_objSet_ne (fs : List (String × JsValue)) {k k' : String} (v : JsValue)
    (h : k' ≠ k) : objGet (objSet fs k' v) k = objGet fs k := by
  induction fs with
  | nil => simp [objGet, objSet, h]
  | cons p rest ih =>
    obtain ⟨k'', v''⟩ := p
    by_cases h2 : k'' = k'
    · subst h2
      simp [objGet, objSet, h]
    · simp [objGet, objSet, h2, ih]

theorem getParts_setParts (parts : List String) (hne : parts ≠ [])
    (fields : List (String × JsValue)) (v : JsValue) :
    getParts (.vObj (setParts fields parts v)) parts = some v := by
  induction parts generalizing fields with
  | nil => exact absurd rfl hne
  | cons k rest ih =>
    cases rest with
    | nil => simp [setParts, getParts, objGet_objSet_self]
    | cons k2 rest2 =>
      simp only [setParts, getParts, objGet_objSet_self]
      exact ih (by simp) _

/-! ## Structural merge engine -/

mutual
/-- The recursive mergeNode of deepMerge (lines 169-187), in source
order: an incoming array replaces wholesale (copied), an incoming
non-object scalar replaces, an incoming object over a non-object (or
absent) left is copied, and two objects merge key by key into a fresh
copy of the left object. -/
def dmNode : Option JsValue → JsValue → JsValue
  | _, .vArr xs => .vArr xs
  | _, .vNull => .vNull
  | _, .vBool b => .vBool b
  | _, .vNum n => .vNum n
  | _, .vStr s => .vStr s
  | some (.vObj lfs), .vObj rfs => .vObj (dmFields lfs rfs)
  | _, .vObj rfs => .vObj rfs

/-- The Object.entries loop of deepMerge (lines 183-186): for each key
of the incoming object, in order, assign the merge of the accumulated
output value at that key with the incoming value. -/
def dmFields : List (String × JsValue) → List (String × JsValue) →
    List (String × JsValue)
  | acc, [] => acc
  | acc, (k, v) :: rest => dmFields (objSet acc k (dmNode (objGet acc k) v)) rest
end

/-- Source deepMerge (lines 168-190). -/
def deepMerge (base incoming : JsValue) : JsValue := dmNode (some base) incoming

/-- The conflict path builder (line 229): the root path is the empty
string; below it, segments are joined with dots. -/
def nextPath (path key : String) : String :=
  if path = "" then key else path ++ "." ++ key

mutual
/-- The recursive mergeNode of mergeSkippingConflicts (lines 198-233),
in source order.  Object.is-equal values are kept as they are (this only
happens for equal primitives in this embedding, so returning the right
value returns the same value the source returns).  Otherwise: an
incoming array or scalar or an incoming object over a non-object left is
adopted when the left side is undefined, and is a recorded conflict
keeping the left value when the left side is defined; two objects merge
key by key. -/
def scNode : Option JsValue → JsValue → String → JsValue × List String
  | left, right, path =>
    if jsIsOpt left right then (right, [])
    else match right with
    | .vArr xs =>
      match left with
      | none => (.vArr xs, [])
      | some l => (l, [path])
    | .vObj rfs =>
      match left with
      | some (.vObj lfs) =>
        let r := scFields lfs rfs path
        (.vObj r.1, r.2)
      | none => (.vObj rfs, [])
      | some l => (l, [path])
    | r =>
      match left with
      | none => (r, [])
      | some l => (l, [path])

/-- The Object.entries loop of mergeSkippingConflicts (lines 228-231):
for each incoming key, in order, merge into the accumulated output and
collect the conflicts of the subtree in traversal order. -/
def scFields : List (String × JsValue) → List (String × JsValue) → String →
    List (String × JsValue) × List String
  | acc, [], _ => (acc, [])
  | acc, (k, v) :: rest, path =>
    let m := scNode (objGet acc k) v (nextPath path k)
    let r := scFields (objSet acc k m.1) rest path
    (r.1, m.2 ++ r.2)
end

/-- Source mergeSkippingConflicts (lines 192-239): returns the merged
tree and the ordered list of conflicting paths. -/
def mergeSkippingConflicts (current incoming : JsValue) :
    JsValue × List String :=
  scNode (some current) incoming ""

/-! ## The store: state container, commit pipeline, sync engine -/

/-- How a sync adapter's push behaves: it can fulfill, return a promise
that rejects, or throw synchronously while being called. -/
inductive PushOutcome where
  | fulfills
  | rejects
  | throwsSync
deriving Repr, DecidableEq

/-- A registered sync adapter as the push step sees it: its object
identity (adapters live in a JavaScript Set, so distinct registered
adapters are distinct objects), how its push behaves, and whether it
provides an onError sink. -/
structure SyncAdapter where
  id : Nat
  pushOutcome : PushOutcome
  hasOnError : Bool
deriving Repr, DecidableEq

/-- The trigger kinds of a committed state transition (source line
12). -/
inductive Source where
  | setPath
  | setState
  | reset
  | hydrate
  | imported
  | sync
deriving Repr, DecidableEq

/-- One observable side effect of a store operation, in the order the
pipeline initiates it: a persistence save, a push issued to one adapter,
that adapter's onError sink receiving a rejection, the onStateChange
event, the subscriber notification sweep, and the onChange event of a
direct set. -/
inductive Effect where
  | save (st : JsValue)
  | pushAttempt (adapterId : Nat) (st : JsValue)
  | onErrorCall (adapterId : Nat)
  | stateChanged (src : Source) (st prev : JsValue)
  | notify
  | changed (path : String) (value : JsValue) (prev : Option JsValue)
deriving Repr

def Effect.isSave : Effect → Bool
  | .save _ => true
  | _ => false

def Effect.isPush : Effect → Bool
  | .pushAttempt _ _ => true
  | _ => false

def Effect.isPushTo (i : Nat) : Effect → Bool
  | .pushAttempt j _ => j == i
  | _ => false

def Effect.isOnErrorOf (i : Nat) : Effect → Bool
  | .onErrorCall j => j == i
  | _ => false

def Effect.isNotify : Effect → Bool
  | .notify => true
  | _ => false

/-- The settings store.  stateRef is the ghost reference id of the
current snapshot's root object and freshRef the next unused id: the id 0
belongs to the initialState object captured at construction, and every
newly constructed root (a setByPath clone, a merge result, a loaded or
pulled tree) receives a fresh id, so the commit pipeline's
Object.is(nextState, state) root check is exactly an id comparison. -/
structure Store where
  initialState : JsValue
  state : JsValue
  stateRef : Nat
  freshRef : Nat
  hasPersistence : Bool
  adapters : List SyncAdapter
deriving Repr

/-- The outcome of one synchronous store operation: the store afterwards,
the trace of side effects it initiated, and whether a synchronous
exception escaped to the caller. -/
structure StepResult where
  store : Store
  effects : List Effect
  threw : Bool
deriving Repr

/-- Source syncPush (lines 274-280): iterate the registered adapters in
insertion order; each push is wrapped in Promise.resolve(...).catch so a
rejection is routed to that adapter's onError (if any) and never
escapes.  A push that throws synchronously, however, throws during the
evaluation of the Promise.resolve argument: the catch handler is never
attached, the exception propagates out of forEach, and the remaining
adapters are not pushed.  The rejection's onError call is a microtask;
this trace places it right after its push attempt, and the claims only
count occurrences. -/
def syncPush : List SyncAdapter → JsValue → List Effect × Bool
  | [], _ => ([], false)
  | a :: rest, st =>
    match a.pushOutcome with
    | .throwsSync => ([.pushAttempt a.id st], true)
    | .fulfills =>
      let r := syncPush rest st
      (.pushAttempt a.id st :: r.1, r.2)
    | .rejects =>
      let r := syncPush rest st
      (.pushAttempt a.id st ::
        ((if a.hasOnError then [Effect.onErrorCall a.id] else []) ++ r.1), r.2)

/-- Source commitState (lines 282-305): no-op if the next state is
reference-equal (same root id) to the current one; otherwise swap the
snapshot, then initiate the persistence save (persist option, default
on), the sync pushes (sync option, default on), the onStateChange event
and the subscriber notification, in that order.  A synchronously
throwing push aborts the pipeline after the swap and the save: the event
and the notification do not run and the exception escapes.  nextRef is
the root id of nextState (a fresh id for every newly constructed tree;
the store's own id for trees taken from the store). -/
def commitState (s : Store) (nextState : JsValue) (nextRef : Nat) (src : Source)
    (persistOpt syncOpt : Bool) : StepResult :=
  if nextRef = s.stateRef then ⟨s, [], false⟩
  else
    let s' : Store := { s with
      state := nextState
      stateRef := nextRef
      freshRef := max s.freshRef (nextRef + 1) }
    let saveEffs : List Effect :=
      if persistOpt && s.hasPersistence then [.save nextState] else []
    let pushed : List Effect × Bool :=
      if syncOpt then syncPush s.adapters nextState else ([], false)
    if pushed.2 then ⟨s', saveEffs ++ pushed.1, true⟩
    else ⟨s', saveEffs ++ pushed.1 ++
      [Effect.stateChanged src nextState s.state, Effect.notify], false⟩

/-- Source store.set (lines 326-345): resolve the previous value, build
the next tree, no-op if the new value is Object.is-equal (SameValue) to
the previous one; otherwise commit with trigger set and then fire the
onChange event.  setByPath returns the state object itself exactly when
the parsed path is empty (so the commit's root check sees the same id),
and a fresh clone otherwise. -/
def storeSet (s : Store) (path : String) (value : JsValue) : StepResult :=
  let previousValue := getByPath s.state path
  let nextRef := if parsePath path = [] then s.stateRef else s.freshRef
  if jsIsOpt previousValue value then ⟨s, [], false⟩
  else
    let r := commitState s (setByPath s.state path value) nextRef .setPath true true
    if r.threw then r
    else ⟨r.store, r.effects ++ [Effect.changed path value previousValue], false⟩

/-- Source store.reset (lines 316-318): commit the initialState object
(root id 0) with trigger reset. -/
def storeReset (s : Store) : StepResult :=
  commitState s s.initialState 0 .reset true true

/-- The persistence adapter as construction sees it: whether a loadSync
function exists and, if so, the tree it returns (none models a null
return).  A loaded tree is a separately constructed object. -/
structure PersistenceModel where
  loadSyncResult : Option (Option JsValue)

/-- Source createSettingsStore (lines 244-260): state starts as the
initialState argument; if a persistence adapter provides loadSync and it
returns a truthy (non-null) tree, that tree becomes the current state
directly, with no commit, so the constructor initiates no side effects
at all (the returned trace is empty by translation: lines 252-258
contain no call into the pipeline).  The loaded tree is a fresh object
(id 1); the initialState keeps id 0. -/
def createSettingsStore (initialState : JsValue)
    (persistence : Option PersistenceModel) : Store × List Effect :=
  let loaded : Option JsValue :=
    match persistence with
    | some p =>
      match p.loadSyncResult with
      | some (some t) => some t
      | _ => none
    | none => none
  match loaded with
  | some t =>
    ({ initialState := initialState, state := t, stateRef := 1, freshRef := 2,
       hasPersistence := true, adapters := [] }, [])
  | none =>
    ({ initialState := initialState, state := initialState, stateRef := 0,
       freshRef := 1, hasPersistence := persistence.isSome, adapters := [] }, [])

/-- The import strategies (source line 45). -/
inductive Strategy where
  | replace
  | merge
  | skipConflicts
deriving Repr, DecidableEq

/-- The value importSettings returns (source lines 53-57). -/
structure ImportResult where
  applied : Bool
  strategy : Strategy
  conflicts : List String
deriving Repr

/-- Source importSettings (lines 359-396), with the blob already
deserialized to a structured value: reject a non-object candidate,
reject a candidate failing the optional validate predicate, apply the
strategy, and commit (trigger import) exactly when the resulting tree is
not reference-equal to the current state.  All three strategies produce
a tree whose root is a newly constructed object for an object-rooted
store (replace adopts the caller's incoming tree, which shares no
references with the store), so the resulting root id is fresh.  A
synchronously throwing adapter push escapes to the caller. -/
def importSettings (s : Store) (candidate : JsValue) (strategy : Strategy)
    (validate : Option (JsValue → Bool)) :
    Except String (StepResult × ImportResult) :=
  if !isObjectV candidate then .error "Imported settings must be an object."
  else if (match validate with
           | some f => !f candidate
           | none => false) then .error "Imported settings failed validation."
  else
    let merged : JsValue × List String :=
      match strategy with
      | .replace => (candidate, [])
      | .merge => (deepMerge s.state candidate, [])
      | .skipConflicts => mergeSkippingConflicts s.state candidate
    let nextRef := s.freshRef
    let applied := !(nextRef == s.stateRef)
    if applied then
      let r := commitState s merged.1 nextRef .imported true true
      if r.threw then .error "sync push threw synchronously during the import commit"
      else .ok (r, ⟨true, strategy, merged.2⟩)
    else .ok (⟨s, [], false⟩, ⟨false, strategy, merged.2⟩)

/-- A sync adapter as syncSettings sees it: the registered core (push
behavior), the optional pull and its result (none models a missing pull
method; some none a null pull result), the optional validate predicate
and the optional custom merge.  Pulled trees and custom merge results
are newly constructed values (fresh root ids). -/
structure SyncAdapterModel where
  core : SyncAdapter
  pullResult : Option (Option JsValue)
  validate : Option (JsValue → Bool)
  mergeFn : Option (JsValue → JsValue → JsValue)

/-- Whether the adapter has a validator and it rejects the candidate
(the adapter.validate and not adapter.validate(incoming) guard of lines
404 and 418). -/
def validateRejects (a : SyncAdapterModel) (incoming : JsValue) : Bool :=
  match a.validate with
  | some f => !f incoming
  | none => false

/-- Source syncSettings (lines 397-431) up to the return of the stop
function: the adapter is added to the active set first; then, if it has
pull and the pull yields a truthy tree, a failing validation is fatal
(the error propagates and the caller never obtains the stop function),
otherwise the pulled tree is reconciled through the adapter's merge (or
taken verbatim) and committed with trigger sync and the sync option off,
which skips the push step of that commit entirely (so nothing can throw
there).  The persistence save keeps its default. -/
def syncSettings (s : Store) (a : SyncAdapterModel) :
    StepResult × Except String Unit :=
  let s1 : Store := { s with adapters := s.adapters ++ [a.core] }
  match a.pullResult with
  | none => (⟨s1, [], false⟩, .ok ())
  | some none => (⟨s1, [], false⟩, .ok ())
  | some (some incoming) =>
    if validateRejects a incoming then
      (⟨s1, [], false⟩, .error "Pulled settings failed sync adapter validation.")
    else
      let merged : JsValue :=
        match a.mergeFn with
        | some f => f s1.state incoming
        | none => incoming
      (commitState s1 merged s1.freshRef .sync true false, .ok ())

/-- The inbound listener syncSettings registers with adapter.subscribe
(lines 413-424): an inbound tree is ignored after stop, silently dropped
when the validator rejects it, and otherwise reconciled and committed
with trigger sync and the sync option off. -/
def syncInboundListener (s : Store) (a : SyncAdapterModel) (stopped : Bool)
    (incoming : JsValue) : StepResult :=
  if stopped then ⟨s, [], false⟩
  else if validateRejects a incoming then ⟨s, [], false⟩
  else
    let merged : JsValue :=
      match a.mergeFn with
      | some f => f s.state incoming
      | none => incoming
    commitState s merged s.freshRef .sync true false

/-- The invariants the ghost reference ids satisfy on every reachable
store: the current root id is below the allocation counter, the id 0 is
the initialState object (so a stateRef of 0 means the current snapshot
is the initial one), and registered adapters are distinct objects. -/
def StoreInv (s : Store) : Prop :=
  s.stateRef < s.freshRef ∧ (s.stateRef = 0 → s.state = s.initialState) ∧
    (s.adapters.map (fun a => a.id)).Nodup

/-- No registered adapter's push throws synchronously (they fulfill or
reject). -/
def NoThrowAdapters (s : Store) : Prop :=
  ∀ a ∈ s.adapters, a.pushOutcome ≠ PushOutcome.throwsSync

/-! ## Commit pipeline lemmas -/

theorem commitState_initialState (s : Store) (n : JsValue) (r : Nat) (src : Source)
    (p q : Bool) : (commitState s n r src p q).store.initialState = s.initialState := by
  simp only [commitState]
  repeat' split
  all_goals rfl

theorem commitState_adapters (s : Store) (n : JsValue) (r : Nat) (src : Source)
    (p q : Bool) : (commitState s n r src p q).store.adapters = s.adapters := by
  simp only [commitState]
  repeat' split
  all_goals rfl

theorem commitState_hasPersistence (s : Store) (n : JsValue) (r : Nat) (src : Source)
    (p q : Bool) : (commitState s n r src p q).store.hasPersistence = s.hasPersistence := by
  simp only [commitState]
  repeat' split
  all_goals rfl

theorem commitState_of_eq (s : Store) (n : JsValue) (src : Source) (p q : Bool) :
    commitState s n s.stateRef src p q = ⟨s, [], false⟩ := by
  unfold commitState
  simp

theorem commitState_state_of_ne (s : Store) (n : JsValue) {r : Nat} (src : Source)
    (p q : Bool) (hne : r ≠ s.stateRef) :
    (commitState s n r src p q).store.state = n := by
  simp only [commitState, if_neg hne]
  repeat' split
  all_goals rfl

theorem commitState_stateRef_of_ne (s : Store) (n : JsValue) {r : Nat} (src : Source)
    (p q : Bool) (hne : r ≠ s.stateRef) :
    (commitState s n r src p q).store.stateRef = r := by
  simp only [commitState, if_neg hne]
  repeat' split
  all_goals rfl

theorem commitState_freshRef_of_ne (s : Store) (n : JsValue) {r : Nat} (src : Source)
    (p q : Bool) (hne : r ≠ s.stateRef) :
    (commitState s n r src p q).store.freshRef = max s.freshRef (r + 1) := by
  simp only [commitState, if_neg hne]
  repeat' split
  all_goals rfl

theorem commitState_inv (s : Store) (n : JsValue) (r : Nat) (src : Source)
    (p q : Bool) (h : StoreInv s) (h0 : r = 0 → n = s.initialState) :
    StoreInv (commitState s n r src p q).store := by
  by_cases hne : r = s.stateRef
  · subst hne
    rw [commitState_of_eq]
    exact h
  · obtain ⟨h1, h2, h3⟩ := h
    refine ⟨?_, ?_, ?_⟩
    · rw [commitState_stateRef_of_ne s n src p q hne,
        commitState_freshRef_of_ne s n src p q hne]
      omega
    · rw [commitState_stateRef_of_ne s n src p q hne,
        commitState_state_of_ne s n src p q hne,
        commitState_initialState s n r src p q]
      exact h0
    · rw [commitState_adapters s n r src p q]
      exact h3

/-! ## Claim C4: get-after-set round trip -/

/-- Claim C4 counterexample: at the empty path the claim fails.  Setting
value 1 at the empty path of the empty tree returns the tree unchanged
(source lines 149-151), so reading the empty path yields the whole tree,
not the written value. -/
theorem claim_C4_counterexample :
    getByPath (setByPath (.vObj []) "" (.vNum 1)) "" ≠ some (.vNum 1) := by
  intro h
  have h2 : JsValue.vObj [] = JsValue.vNum 1 := Option.some.inj h
  exact JsValue.noConfusion h2

/-- Claim C4 (amended): the get-after-set round trip
getByPath (setByPath tree p v) p = v holds for every object tree, value,
and path whose parsed segment list is nonempty; for a path that parses
to no segments (such as the empty path) setByPath returns the input tree
unchanged, so the round trip yields the tree itself rather than v. -/
theorem claim_C4_amended (fields : List (String × JsValue)) (path : String)
    (v : JsValue) :
    (parsePath path ≠ [] →
      getByPath (setByPath (.vObj fields) path v) path = some v) ∧
    (parsePath path = [] → setByPath (.vObj fields) path v = .vObj fields) := by
  constructor
  · intro h
    unfold getByPath setByPath
    match hp : parsePath path with
    | [] => exact absurd hp h
    | k :: rest =>
      simp only [fieldsOf]
      exact getParts_setParts (k :: rest) (by simp) fields v
  · intro h
    unfold setByPath
    rw [h]

/-- Witness for claim C4 (amended) at the concrete tree, path and value
of spec Scenario A. -/
theorem claim_C4_witness :
    getByPath (setByPath (.vObj [("a", .vObj [("b", .vNum 1)])]) "a.b" (.vNum 2))
      "a.b" = some (.vNum 2) :=
  (claim_C4_amended [("a", .vObj [("b", .vNum 1)])] "a.b" (.vNum 2)).1 (by decide)

/-! ## Claim C6: set is a no-op on a SameValue-equal write -/

/-- Claim C6: when the value resolved at the path is value-equal
(SameValue, the source's Object.is on line 329) to the new value, set
returns before the commit and before the onChange call: the store is
unchanged (no new snapshot), no effect of any kind is initiated, and no
exception escapes. -/
theorem claim_C6 (s : Store) (path : String) (v : JsValue)
    (h : jsIsOpt (getByPath s.state path) v = true) :
    storeSet s path v = ⟨s, [], false⟩ := by
  unfold storeSet
  simp [h]

def c6Store : Store :=
  { initialState := .vObj [("a", .vNum 1)], state := .vObj [("a", .vNum 1)],
    stateRef := 0, freshRef := 1, hasPersistence := true,
    adapters := [⟨3, .rejects, true⟩] }

/-- Witness for claim C6: rewriting the value 1 already stored at path a
is a no-op even with persistence and a sync adapter registered. -/
theorem claim_C6_witness : storeSet c6Store "a" (.vNum 1) = ⟨c6Store, [], false⟩ :=
  claim_C6 c6Store "a" (.vNum 1) (by decide)

/-! ## Claim C7: reset restores the initial snapshot -/

/-- The store after a finite sequence of set calls. -/
def applySets (s : Store) (ops : List (String × JsValue)) : Store :=
  ops.foldl (fun acc op => (storeSet acc op.1 op.2).store) s

theorem storeSet_initialState (s : Store) (path : String) (v : JsValue) :
    (storeSet s path v).store.initialState = s.initialState := by
  simp only [storeSet]
  repeat' split
  all_goals first
    | rfl
    | exact commitState_initialState s _ _ _ _ _

theorem storeSet_inv (s : Store) (path : String) (v : JsValue) (h : StoreInv s) :
    StoreInv (storeSet s path v).store := by
  by_cases hp : parsePath path = []
  · have h0 : s.stateRef = 0 → setByPath s.state path v = s.initialState := by
      intro hz
      simp only [setByPath, hp]
      exact h.2.1 hz
    simp only [storeSet, hp, if_pos]
    repeat' split
    all_goals first
      | exact h
      | exact commitState_inv s _ _ _ _ _ h h0
  · have h0 : s.freshRef = 0 → setByPath s.state path v = s.initialState := by
      intro hz
      exact absurd hz (by have := h.1; omega)
    simp only [storeSet, hp, if_neg, ite_false]
    repeat' split
    all_goals first
      | exact h
      | exact commitState_inv s _ _ _ _ _ h h0

theorem applySets_initialState (s : Store) (ops : List (String × JsValue)) :
    (applySets s ops).initialState = s.initialState := by
  induction ops generalizing s with
  | nil => rfl
  | cons op rest ih =>
    unfold applySets
    rw [List.foldl_cons]
    have := ih (storeSet s op.1 op.2).store
    unfold applySets at this
    rw [this, storeSet_initialState]

theorem applySets_inv (s : Store) (ops : List (String × JsValue)) (h : StoreInv s) :
    StoreInv (applySets s ops) := by
  induction ops generalizing s with
  | nil => exact h
  | cons op rest ih =>
    unfold applySets
    rw [List.foldl_cons]
    exact ih _ (storeSet_inv s op.1 op.2 h)

theorem storeReset_state (s : Store) (h : StoreInv s) :
    (storeReset s).store.state = s.initialState := by
  unfold storeReset
  by_cases hz : 0 = s.stateRef
  · rw [hz, commitState_of_eq]
    exact h.2.1 hz.symm
  · rw [commitState_state_of_ne s _ _ _ _ hz]

/-- Claim C7: after any finite sequence of set calls, reset restores the
current snapshot to the initial snapshot, and the initial snapshot is
the same unmutated tree throughout (setByPath clones along the written
path, so no set call ever alters the initialState object captured at
construction). -/
theorem claim_C7 (s : Store) (h : StoreInv s) (ops : List (String × JsValue)) :
    (applySets s ops).initialState = s.initialState ∧
    (storeReset (applySets s ops)).store.state = s.initialState := by
  refine ⟨applySets_initialState s ops, ?_⟩
  rw [storeReset_state _ (applySets_inv s ops h), applySets_initialState]

def c7Store : Store :=
  { initialState := .vObj [("a", .vObj [("b", .vNum 1)])],
    state := .vObj [("a", .vObj [("b", .vNum 1)])],
    stateRef := 0, freshRef := 1, hasPersistence := false, adapters := [] }

/-- Witness for claim C7 at a concrete store and a concrete sequence of
two set calls. -/
theorem claim_C7_witness :
    (applySets c7Store [("a.b", .vNum 2), ("c", .vStr "x")]).initialState =
      c7Store.initialState ∧
    (storeReset (applySets c7Store [("a.b", .vNum 2), ("c", .vStr "x")])).store.state =
      c7Store.initialState :=
  claim_C7 c7Store (by unfold StoreInv; exact ⟨by decide, fun _ => rfl, by decide⟩)
    [("a.b", .vNum 2), ("c", .vStr "x")]

/-! ## Claim C9: synchronous load at construction -/

/-- Claim C9: when the store is constructed with a persistence adapter
whose loadSync returns a non-null tree, that tree becomes the current
state directly with no commit — the construction initiates no save, no
push, no state-change event and no notification — while getInitialState
still returns the constructor's initialState argument; reset therefore
targets the constructor argument, not the loaded tree. -/
theorem claim_C9 (i t : JsValue) (p : PersistenceModel)
    (h : p.loadSyncResult = some (some t)) :
    (createSettingsStore i (some p)).2 = [] ∧
    (createSettingsStore i (some p)).1.state = t ∧
    (createSettingsStore i (some p)).1.initialState = i ∧
    (storeReset (createSettingsStore i (some p)).1).store.state = i := by
  have e : createSettingsStore i (some p) =
      ({ initialState := i, state := t, stateRef := 1, freshRef := 2,
         hasPersistence := true, adapters := [] }, []) := by
    simp only [createSettingsStore, h]
  rw [e]
  refine ⟨rfl, rfl, rfl, ?_⟩
  unfold storeReset
  refine commitState_state_of_ne _ _ _ _ _ ?_
  simp

/-! ## Push counting lemmas for the sync engine -/

theorem syncPush_noThrow (adapters : List SyncAdapter) (st : JsValue)
    (h : ∀ a ∈ adapters, a.pushOutcome ≠ PushOutcome.throwsSync) :
    (syncPush adapters st).2 = false := by
  induction adapters with
  | nil => rfl
  | cons a rest ih =>
    have ha := h a (List.mem_cons_self a rest)
    have hrest := fun b hb => h b (List.mem_cons_of_mem a hb)
    cases hpo : a.pushOutcome with
    | throwsSync => exact absurd hpo ha
    | fulfills => simpa [syncPush, hpo] using ih hrest
    | rejects => simpa [syncPush, hpo] using ih hrest

theorem syncPush_push_zero (adapters : List SyncAdapter) (st : JsValue) (i : Nat)
    (h : i ∉ adapters.map (fun a => a.id)) :
    (syncPush adapters st).1.countP (Effect.isPushTo i) = 0 := by
  induction adapters with
  | nil => rfl
  | cons a rest ih =>
    have hai : a.id ≠ i := fun he => h (by simp [he])
    have hrest : i ∉ rest.map (fun a => a.id) := fun hm => h (by simp at hm ⊢; exact Or.inr hm)
    cases hpo : a.pushOutcome with
    | throwsSync => simp [syncPush, hpo, List.countP_cons, Effect.isPushTo, hai]
    | fulfills => simp [syncPush, hpo, List.countP_cons, Effect.isPushTo, hai, ih hrest]
    | rejects =>
      cases hoe : a.hasOnError <;>
        simp [syncPush, hpo, hoe, List.countP_cons, Effect.isPushTo, hai, ih hrest]

theorem syncPush_onError_zero (adapters : List SyncAdapter) (st : JsValue) (i : Nat)
    (h : i ∉ adapters.map (fun a => a.id)) :
    (syncPush adapters st).1.countP (Effect.isOnErrorOf i) = 0 := by
  induction adapters with
  | nil => rfl
  | cons a rest ih =>
    have hai : a.id ≠ i := fun he => h (by simp [he])
    have hrest : i ∉ rest.map (fun a => a.id) := fun hm => h (by simp at hm ⊢; exact Or.inr hm)
    cases hpo : a.pushOutcome with
    | throwsSync => simp [syncPush, hpo, List.countP_cons, Effect.isOnErrorOf]
    | fulfills => simp [syncPush, hpo, List.countP_cons, Effect.isOnErrorOf, ih hrest]
    | rejects =>
      cases hoe : a.hasOnError <;>
        simp [syncPush, hpo, hoe, List.countP_cons, Effect.isOnErrorOf, hai, ih hrest]

theorem syncPush_push_one (adapters : List SyncAdapter) (st : JsValue)
    (hnt : ∀ b ∈ adapters, b.pushOutcome ≠ PushOutcome.throwsSync)
    (hnd : (adapters.map (fun a => a.id)).Nodup) (a : SyncAdapter) (ha : a ∈ adapters) :
    (syncPush adapters st).1.countP (Effect.isPushTo a.id) = 1 := by
  induction adapters with
  | nil => exact absurd ha (List.not_mem_nil a)
  | cons b rest ih =>
    have hb := hnt b (List.mem_cons_self b rest)
    have hrestnt := fun c hc => hnt c (List.mem_cons_of_mem b hc)
    have hndrest : (rest.map (fun a => a.id)).Nodup := (List.nodup_cons.mp hnd).2
    have hbnotin : b.id ∉ rest.map (fun a => a.id) := (List.nodup_cons.mp hnd).1
    rcases List.mem_cons.mp ha with he | hm
    · subst he
      cases hpo : a.pushOutcome with
      | throwsSync => exact absurd hpo hb
      | fulfills =>
        simp [syncPush, hpo, List.countP_cons, Effect.isPushTo,
          syncPush_push_zero rest st a.id hbnotin]
      | rejects =>
        cases hoe : a.hasOnError <;>
          simp [syncPush, hpo, hoe, List.countP_cons, Effect.isPushTo,
            syncPush_push_zero rest st a.id hbnotin]
    · have hane : b.id ≠ a.id := by
        intro he
        exact hbnotin (he ▸ List.mem_map.mpr ⟨a, hm, rfl⟩)
      cases hpo : b.pushOutcome with
      | throwsSync => exact absurd hpo hb
      | fulfills =>
        simp [syncPush, hpo, List.countP_cons, Effect.isPushTo, hane,
          ih hrestnt hndrest hm]
      | rejects =>
        cases hoe : b.hasOnError <;>
          simp [syncPush, hpo, hoe, List.countP_cons, Effect.isPushTo, Effect.isOnErrorOf,
            hane, ih hrestnt hndrest hm]

theorem syncPush_onError_one (adapters : List SyncAdapter) (st : JsValue)
    (hnt : ∀ b ∈ adapters, b.pushOutcome ≠ PushOutcome.throwsSync)
    (hnd : (adapters.map (fun a => a.id)).Nodup) (a : SyncAdapter) (ha : a ∈ adapters)
    (hr : a.pushOutcome = PushOutcome.rejects) (hoe : a.hasOnError = true) :
    (syncPush adapters st).1.countP (Effect.isOnErrorOf a.id) = 1 := by
  induction adapters with
  | nil => exact absurd ha (List.not_mem_nil a)
  | cons b rest ih =>
    have hb := hnt b (List.mem_cons_self b rest)
    have hrestnt := fun c hc => hnt c (List.mem_cons_of_mem b hc)
    have hndrest : (rest.map (fun a => a.id)).Nodup := (List.nodup_cons.mp hnd).2
    have hbnotin : b.id ∉ rest.map (fun a => a.id) := (List.nodup_cons.mp hnd).1
    rcases List.mem_cons.mp ha with he | hm
    · subst he
      simp [syncPush, hr, hoe, List.countP_cons, Effect.isOnErrorOf, Effect.isPushTo,
        syncPush_onError_zero rest st a.id hbnotin]
    · have hane : b.id ≠ a.id := by
        intro he
        exact hbnotin (he ▸ List.mem_map.mpr ⟨a, hm, rfl⟩)
      cases hpo : b.pushOutcome with
      | throwsSync => exact absurd hpo hb
      | fulfills =>
        simp [syncPush, hpo, List.countP_cons, Effect.isOnErrorOf,
          ih hrestnt hndrest hm]
      | rejects =>
        cases hoe2 : b.hasOnError <;>
          simp [syncPush, hpo, hoe2, List.countP_cons, Effect.isOnErrorOf, hane,
            ih hrestnt hndrest hm]

theorem syncPush_last_pos (adapters : List SyncAdapter) (st : JsValue) (a : SyncAdapter)
    (hnt : ∀ b ∈ adapters, b.pushOutcome ≠ PushOutcome.throwsSync) :
    1 ≤ (syncPush (adapters ++ [a]) st).1.countP (Effect.isPushTo a.id) := by
  induction adapters with
  | nil =>
    cases hpo : a.pushOutcome with
    | throwsSync => simp [syncPush, hpo, List.countP_cons, Effect.isPushTo]
    | fulfills => simp [syncPush, hpo, List.countP_cons, Effect.isPushTo]
    | rejects =>
      cases hoe : a.hasOnError <;>
        simp [syncPush, hpo, hoe, List.countP_cons, Effect.isPushTo]
  | cons b rest ih =>
    have hb := hnt b (List.mem_cons_self b rest)
    have hrest := fun c hc => hnt c (List.mem_cons_of_mem b hc)
    have := ih hrest
    cases hpo : b.pushOutcome with
    | throwsSync => exact absurd hpo hb
    | fulfills =>
      simp only [List.cons_append, syncPush, hpo, List.countP_cons, List.append_eq]
      omega
    | rejects =>
      cases hoe : b.hasOnError <;>
        · simp only [List.cons_append, syncPush, hpo, hoe, List.countP_cons,
            List.countP_append, List.append_eq]
          omega

/-- The commit equation when the root actually changes, the sync option
is on, and no registered push throws. -/
theorem commitState_eq_of_ne (s : Store) (n : JsValue) {r : Nat} (src : Source)
    (p : Bool) (hne : r ≠ s.stateRef) (hq : (syncPush s.adapters n).2 = false) :
    commitState s n r src p true =
      ⟨{ s with
          state := n
          stateRef := r
          freshRef := max s.freshRef (r + 1) },
        (if p && s.hasPersistence then [Effect.save n] else []) ++
          (syncPush s.adapters n).1 ++
          [Effect.stateChanged src n s.state, Effect.notify], false⟩ := by
  simp [commitState, hne, hq]

/-- The commit equation when the root actually changes and the sync
option is off: no push is issued at all and nothing can throw. -/
theorem commitState_noSync_eq (s : Store) (n : JsValue) {r : Nat} (src : Source)
    (p : Bool) (hne : r ≠ s.stateRef) :
    commitState s n r src p false =
      ⟨{ s with
          state := n
          stateRef := r
          freshRef := max s.freshRef (r + 1) },
        (if p && s.hasPersistence then [Effect.save n] else []) ++
          [Effect.stateChanged src n s.state, Effect.notify], false⟩ := by
  simp [commitState, hne]

/-- The equation of a committing set: parsed path nonempty (fresh root
clone), changed value, no synchronously throwing push. -/
theorem storeSet_eq (s : Store) (path : String) (v : JsValue)
    (hch : jsIsOpt (getByPath s.state path) v = false)
    (hp : parsePath path ≠ [])
    (hq : (syncPush s.adapters (setByPath s.state path v)).2 = false)
    (hne : s.freshRef ≠ s.stateRef) :
    storeSet s path v =
      ⟨{ s with
          state := setByPath s.state path v
          stateRef := s.freshRef
          freshRef := max s.freshRef (s.freshRef + 1) },
        ((if s.hasPersistence then [Effect.save (setByPath s.state path v)] else []) ++
          (syncPush s.adapters (setByPath s.state path v)).1 ++
          [Effect.stateChanged Source.setPath (setByPath s.state path v) s.state,
            Effect.notify]) ++
          [Effect.changed path v (getByPath s.state path)], false⟩ := by
  rw [storeSet]
  simp only [hp, if_neg, ite_false, hch, Bool.false_eq_true,
    commitState_eq_of_ne s (setByPath s.state path v) Source.setPath true hne hq]
  simp

/-- Witness for claim C9 with a loaded tree different from the initial
tree: right after construction the current and initial snapshots
differ. -/
theorem claim_C9_witness :
    (createSettingsStore (.vObj [("th", .vStr "dark")])
      (some ⟨some (some (.vObj [("th", .vStr "light")]))⟩)).2 = [] ∧
    (createSettingsStore (.vObj [("th", .vStr "dark")])
      (some ⟨some (some (.vObj [("th", .vStr "light")]))⟩)).1.state =
      .vObj [("th", .vStr "light")] ∧
    (createSettingsStore (.vObj [("th", .vStr "dark")])
      (some ⟨some (some (.vObj [("th", .vStr "light")]))⟩)).1.initialState =
      .vObj [("th", .vStr "dark")] ∧
    (storeReset (createSettingsStore (.vObj [("th", .vStr "dark")])
      (some ⟨some (some (.vObj [("th", .vStr "light")]))⟩)).1).store.state =
      .vObj [("th", .vStr "dark")] :=
  claim_C9 (.vObj [("th", .vStr "dark")]) (.vObj [("th", .vStr "light")])
    ⟨some (some (.vObj [("th", .vStr "light")]))⟩ rfl


/-! ## Claim C1: push failure isolation -/

def c1Store : Store :=
  { initialState := .vObj [("a", .vNum 1)], state := .vObj [("a", .vNum 1)],
    stateRef := 0, freshRef := 1, hasPersistence := false,
    adapters := [⟨0, .throwsSync, true⟩, ⟨1, .fulfills, false⟩] }

/-- Claim C1 counterexample: the claim also covers pushes that throw
synchronously, but a synchronous throw escapes
Promise.resolve(adapter.push(...)) before the catch handler is attached
(line 276).  With a first adapter whose push throws and a second healthy
adapter, a local set propagates the exception to the mutating caller,
the second adapter's push is never issued, and the thrower's onError is
never invoked. -/
theorem claim_C1_counterexample :
    (storeSet c1Store "a" (.vNum 2)).threw = true ∧
    (storeSet c1Store "a" (.vNum 2)).effects.countP (Effect.isPushTo 1) = 0 ∧
    (storeSet c1Store "a" (.vNum 2)).effects.countP (Effect.isOnErrorOf 0) = 0 :=
  ⟨rfl, rfl, rfl⟩

/-- Claim C1 (amended): restricted to pushes that fail by rejection
(returning a rejected promise) rather than by throwing synchronously: a
committing local set returns without error, the new state is committed,
every registered adapter's push is issued exactly once for that commit,
and each rejecting adapter's onError (when provided) receives exactly
one error per push attempt.  A synchronously throwing push, by contrast,
propagates to the mutating caller (see the counterexample). -/
theorem claim_C1_amended (s : Store) (path : String) (v : JsValue)
    (hinv : StoreInv s) (hnt : NoThrowAdapters s)
    (hch : jsIsOpt (getByPath s.state path) v = false)
    (hp : parsePath path ≠ []) :
    (storeSet s path v).threw = false ∧
    (storeSet s path v).store.state = setByPath s.state path v ∧
    (∀ a ∈ s.adapters,
      (storeSet s path v).effects.countP (Effect.isPushTo a.id) = 1) ∧
    (∀ a ∈ s.adapters, a.pushOutcome = PushOutcome.rejects → a.hasOnError = true →
      (storeSet s path v).effects.countP (Effect.isOnErrorOf a.id) = 1) := by
  have hne : s.freshRef ≠ s.stateRef := by have := hinv.1; omega
  have hq : (syncPush s.adapters (setByPath s.state path v)).2 = false :=
    syncPush_noThrow _ _ hnt
  rw [storeSet_eq s path v hch hp hq hne]
  refine ⟨rfl, rfl, ?_, ?_⟩
  · intro a ha
    simp only [List.countP_append]
    rw [syncPush_push_one s.adapters _ hnt hinv.2.2 a ha]
    have h1 : List.countP (Effect.isPushTo a.id)
        (if s.hasPersistence then [Effect.save (setByPath s.state path v)] else []) = 0 := by
      cases s.hasPersistence <;> simp [Effect.isPushTo]
    simp [h1, Effect.isPushTo]
  · intro a ha hr hoe
    simp only [List.countP_append]
    rw [syncPush_onError_one s.adapters _ hnt hinv.2.2 a ha hr hoe]
    have h1 : List.countP (Effect.isOnErrorOf a.id)
        (if s.hasPersistence then [Effect.save (setByPath s.state path v)] else []) = 0 := by
      cases s.hasPersistence <;> simp [Effect.isOnErrorOf]
    simp [h1, Effect.isOnErrorOf]

def c1aStore : Store :=
  { initialState := .vObj [("a", .vNum 1)], state := .vObj [("a", .vNum 1)],
    stateRef := 0, freshRef := 1, hasPersistence := false,
    adapters := [⟨0, .rejects, true⟩, ⟨1, .fulfills, false⟩] }

/-- Witness for claim C1 (amended): a store with an always-rejecting
adapter (with onError) and a healthy adapter; a local set commits, both
pushes are issued, and the rejecting adapter's onError fires once. -/
theorem claim_C1_witness :
    (storeSet c1aStore "a" (.vNum 2)).threw = false ∧
    (storeSet c1aStore "a" (.vNum 2)).store.state =
      setByPath c1aStore.state "a" (.vNum 2) ∧
    (∀ a ∈ c1aStore.adapters,
      (storeSet c1aStore "a" (.vNum 2)).effects.countP (Effect.isPushTo a.id) = 1) ∧
    (∀ a ∈ c1aStore.adapters, a.pushOutcome = PushOutcome.rejects → a.hasOnError = true →
      (storeSet c1aStore "a" (.vNum 2)).effects.countP (Effect.isOnErrorOf a.id) = 1) :=
  claim_C1_amended c1aStore "a" (.vNum 2)
    (by unfold StoreInv; exact ⟨by decide, fun _ => rfl, by decide⟩)
    (by intro a ha; fin_cases ha <;> decide)
    (by decide) (by decide)

/-! ## Claim C5: the pull commit of syncSettings -/

def c5Store : Store :=
  { initialState := .vObj [("x", .vNum 1)], state := .vObj [("x", .vNum 1)],
    stateRef := 0, freshRef := 1, hasPersistence := true,
    adapters := [⟨5, .fulfills, false⟩] }

def c5Adapter : SyncAdapterModel :=
  { core := ⟨7, .fulfills, false⟩,
    pullResult := some (some (.vObj [("x", .vNum 9)])),
    validate := none, mergeFn := none }

/-- Claim C5 counterexample: the pull commit passes sync false (line
409), which skips the push step of that commit entirely, so the other
registered adapter (id 5) receives no push either — refuting that only
the re-push to the pulling adapter is suppressed.  The persistence save
still happens. -/
theorem claim_C5_counterexample :
    (syncSettings c5Store c5Adapter).2 = .ok () ∧
    (syncSettings c5Store c5Adapter).1.store.state = .vObj [("x", .vNum 9)] ∧
    (syncSettings c5Store c5Adapter).1.effects.countP Effect.isSave = 1 ∧
    (syncSettings c5Store c5Adapter).1.effects.countP (Effect.isPushTo 5) = 0 :=
  ⟨rfl, rfl, rfl, rfl⟩

/-- Claim C5 (amended): when syncSettings pulls a tree and commits the
reconciled result with trigger sync, that commit still invokes the
persistence save, but the sync push step of that commit is suppressed
entirely: no registered adapter — neither the pulling one nor any
other — receives a push for that commit. -/
theorem claim_C5_amended (s : Store) (a : SyncAdapterModel) (incoming : JsValue)
    (hinv : StoreInv s) (hpull : a.pullResult = some (some incoming))
    (hval : validateRejects a incoming = false) :
    (syncSettings s a).2 = .ok () ∧
    (syncSettings s a).1.threw = false ∧
    (syncSettings s a).1.store.state =
      (match a.mergeFn with
       | some f => f s.state incoming
       | none => incoming) ∧
    ((syncSettings s a).1.effects.countP Effect.isSave =
      if s.hasPersistence then 1 else 0) ∧
    (syncSettings s a).1.effects.countP Effect.isPush = 0 := by
  have hne1 : s.freshRef ≠
      (({ s with adapters := s.adapters ++ [a.core] } : Store)).stateRef := by
    show s.freshRef ≠ s.stateRef
    have := hinv.1
    omega
  have key := commitState_noSync_eq ({ s with adapters := s.adapters ++ [a.core] })
    (match a.mergeFn with
     | some f => f s.state incoming
     | none => incoming) Source.sync true hne1
  simp only [syncSettings, hpull, hval, Bool.false_eq_true, if_false, key]
  refine ⟨trivial, trivial, trivial, ?_, ?_⟩
  · cases hper : s.hasPersistence <;>
      simp [hper, List.countP_append, List.countP_cons, Effect.isSave]
  · cases hper : s.hasPersistence <;>
      simp [hper, List.countP_append, List.countP_cons, Effect.isPush]

def c5bStore : Store :=
  { initialState := .vObj [("x", .vNum 1)], state := .vObj [("x", .vNum 1)],
    stateRef := 0, freshRef := 1, hasPersistence := true,
    adapters := [⟨5, .rejects, true⟩] }

/-- Witness for claim C5 (amended) at a concrete store with persistence
and another registered adapter. -/
theorem claim_C5_witness :
    (syncSettings c5bStore c5Adapter).2 = .ok () ∧
    (syncSettings c5bStore c5Adapter).1.threw = false ∧
    (syncSettings c5bStore c5Adapter).1.store.state =
      (match c5Adapter.mergeFn with
       | some f => f c5bStore.state (.vObj [("x", .vNum 9)])
       | none => (.vObj [("x", .vNum 9)])) ∧
    ((syncSettings c5bStore c5Adapter).1.effects.countP Effect.isSave =
      if c5bStore.hasPersistence then 1 else 0) ∧
    (syncSettings c5bStore c5Adapter).1.effects.countP Effect.isPush = 0 :=
  claim_C5_amended c5bStore c5Adapter (.vObj [("x", .vNum 9)])
    (by unfold StoreInv; exact ⟨by decide, fun _ => rfl, by decide⟩) rfl rfl

/-! ## Claim C8: sync validation, fatal on pull, silent on inbound -/

/-- Claim C8: with a validator present, a pulled tree failing validation
makes syncSettings raise (setup is fatal: an error is returned, nothing
is committed, no effect is initiated), while an inbound tree from the
adapter's subscribe feed failing validation is silently dropped: the
listener returns with the store unchanged, no effects, and no error. -/
theorem claim_C8 (s : Store) (a : SyncAdapterModel) (t : JsValue)
    (f : JsValue → Bool) (hv : a.validate = some f) (hf : f t = false) :
    (a.pullResult = some (some t) →
      (syncSettings s a).2 =
        .error "Pulled settings failed sync adapter validation." ∧
      (syncSettings s a).1.effects = [] ∧
      (syncSettings s a).1.store.state = s.state ∧
      (syncSettings s a).1.threw = false) ∧
    syncInboundListener s a false t = ⟨s, [], false⟩ := by
  have hrej : validateRejects a t = true := by simp [validateRejects, hv, hf]
  constructor
  · intro hpull
    simp only [syncSettings, hpull, hrej, if_true]
    exact ⟨trivial, trivial, trivial, trivial⟩
  · simp only [syncInboundListener, hrej, if_true, Bool.false_eq_true, if_false]

def c8Adapter : SyncAdapterModel :=
  { core := ⟨2, .fulfills, false⟩,
    pullResult := some (some (.vNum 3)),
    validate := some isObjectV, mergeFn := none }

/-- Witness for claim C8: an adapter validating that trees are objects,
fed the non-object tree 3 on pull and on the inbound feed. -/
theorem claim_C8_witness :
    ((c8Adapter.pullResult = some (some (.vNum 3)) →
      (syncSettings c7Store c8Adapter).2 =
        .error "Pulled settings failed sync adapter validation." ∧
      (syncSettings c7Store c8Adapter).1.effects = [] ∧
      (syncSettings c7Store c8Adapter).1.store.state = c7Store.state ∧
      (syncSettings c7Store c8Adapter).1.threw = false) ∧
    syncInboundListener c7Store c8Adapter false (.vNum 3) = ⟨c7Store, [], false⟩) :=
  claim_C8 c7Store c8Adapter (.vNum 3) isObjectV rfl rfl

/-! ## Claim C10: a failed pull validation leaves the adapter registered -/

/-- Claim C10: when the pulled tree fails validation, syncSettings
raises, but the adapter was added to the active set before the pull
(line 398) and the error path does not remove it: the adapter is still
registered in the store the error leaves behind, and every subsequent
committing set still issues a push to it (its push is attempted even
though the caller never obtained the stop function). -/
theorem claim_C10 (s : Store) (a : SyncAdapterModel) (t : JsValue)
    (f : JsValue → Bool) (hinv : StoreInv s) (hnt : NoThrowAdapters s)
    (hv : a.validate = some f) (hpull : a.pullResult = some (some t))
    (hf : f t = false) :
    (syncSettings s a).2 =
      .error "Pulled settings failed sync adapter validation." ∧
    a.core ∈ (syncSettings s a).1.store.adapters ∧
    (∀ path v, parsePath path ≠ [] →
      jsIsOpt (getByPath (syncSettings s a).1.store.state path) v = false →
      a.core.pushOutcome ≠ PushOutcome.throwsSync →
      1 ≤ (storeSet (syncSettings s a).1.store path v).effects.countP
        (Effect.isPushTo a.core.id)) := by
  have hrej : validateRejects a t = true := by simp [validateRejects, hv, hf]
  simp only [syncSettings, hpull, hrej, if_true]
  refine ⟨trivial, by simp, ?_⟩
  intro path v hp hch hac
  have hnt1 : ∀ b ∈ s.adapters ++ [a.core],
      b.pushOutcome ≠ PushOutcome.throwsSync := by
    intro b hb
    rcases List.mem_append.mp hb with hb | hb
    · exact hnt b hb
    · rw [List.mem_singleton] at hb
      exact hb ▸ hac
  have hq : (syncPush (s.adapters ++ [a.core]) (setByPath s.state path v)).2 = false :=
    syncPush_noThrow _ _ hnt1
  have hne1 : (({ s with adapters := s.adapters ++ [a.core] } : Store)).freshRef ≠
      (({ s with adapters := s.adapters ++ [a.core] } : Store)).stateRef := by
    show s.freshRef ≠ s.stateRef
    have := hinv.1
    omega
  rw [storeSet_eq ({ s with adapters := s.adapters ++ [a.core] }) path v hch hp hq hne1]
  dsimp only
  simp only [List.countP_append]
  have hpos : 1 ≤ (syncPush (s.adapters ++ [a.core])
      (setByPath s.state path v)).1.countP (Effect.isPushTo a.core.id) :=
    syncPush_last_pos s.adapters _ a.core hnt
  omega

def c10Adapter : SyncAdapterModel :=
  { core := ⟨9, .fulfills, true⟩,
    pullResult := some (some (.vNum 3)),
    validate := some isObjectV, mergeFn := none }

/-- Witness for claim C10: after the failed pull validation, a set at
path a still pushes to the adapter that raised. -/
theorem claim_C10_witness :
    (syncSettings c7Store c10Adapter).2 =
      .error "Pulled settings failed sync adapter validation." ∧
    c10Adapter.core ∈ (syncSettings c7Store c10Adapter).1.store.adapters ∧
    (∀ path v, parsePath path ≠ [] →
      jsIsOpt (getByPath (syncSettings c7Store c10Adapter).1.store.state path) v = false →
      c10Adapter.core.pushOutcome ≠ PushOutcome.throwsSync →
      1 ≤ (storeSet (syncSettings c7Store c10Adapter).1.store path v).effects.countP
        (Effect.isPushTo c10Adapter.core.id)) :=
  claim_C10 c7Store c10Adapter (.vNum 3) isObjectV
    (by unfold StoreInv; exact ⟨by decide, fun _ => rfl, by decide⟩)
    (by intro b hb; simp [c7Store] at hb) rfl rfl rfl


/-! ## Claim C2: import with strategy merge on identical input -/

/-- No key equal to k occurs in the field list. -/
def keyFree (k : String) : List (String × JsValue) → Bool
  | [] => true
  | (k', _) :: rest => (k' != k) && keyFree k rest

mutual
/-- A tree is well formed when every object in it has pairwise distinct
keys, as every actual JavaScript object does. -/
def wfVal : JsValue → Bool
  | .vNull => true
  | .vBool _ => true
  | .vNum _ => true
  | .vStr _ => true
  | .vArr xs => wfList xs
  | .vObj fs => wfFields fs

def wfList : List JsValue → Bool
  | [] => true
  | x :: rest => wfVal x && wfList rest

def wfFields : List (String × JsValue) → Bool
  | [] => true
  | (k, v) :: rest => keyFree k rest && wfVal v && wfFields rest
end

theorem keyFree_not_mem {k : String} {fs : List (String × JsValue)}
    (h : keyFree k fs = true) {v : JsValue} (hm : (k, v) ∈ fs) : False := by
  induction fs with
  | nil => exact List.not_mem_nil _ hm
  | cons p rest ih =>
    obtain ⟨k', v'⟩ := p
    simp only [keyFree, Bool.and_eq_true, bne_iff_ne] at h
    rcases List.mem_cons.mp hm with he | hm2
    · cases he
      exact h.1 rfl
    · exact ih h.2 hm2

theorem wfFields_keyFree {k : String} {v : JsValue} {fs : List (String × JsValue)} :
    wfFields ((k, v) :: fs) = true →
      keyFree k fs = true ∧ wfVal v = true ∧ wfFields fs = true := by
  intro h
  simp only [wfFields, Bool.and_eq_true] at h
  exact ⟨h.1.1, h.1.2, h.2⟩

theorem objGet_first {fs : List (String × JsValue)} (hwf : wfFields fs = true)
    {k : String} {v : JsValue} (hm : (k, v) ∈ fs) : objGet fs k = some v := by
  induction fs with
  | nil => exact absurd hm (List.not_mem_nil _)
  | cons p rest ih =>
    obtain ⟨k', v'⟩ := p
    obtain ⟨hkf, hwv, hwr⟩ := wfFields_keyFree hwf
    rcases List.mem_cons.mp hm with he | hm2
    · cases he
      simp [objGet]
    · by_cases hk : k' = k
      · exact absurd hm2 (fun hm3 => keyFree_not_mem (hk ▸ hkf) hm3)
      · simpa [objGet, hk] using ih hwr hm2

theorem wfFields_mem_wfVal {fs : List (String × JsValue)} (hwf : wfFields fs = true)
    {k : String} {v : JsValue} (hm : (k, v) ∈ fs) : wfVal v = true := by
  induction fs with
  | nil => exact absurd hm (List.not_mem_nil _)
  | cons p rest ih =>
    obtain ⟨k', v'⟩ := p
    obtain ⟨hkf, hwv, hwr⟩ := wfFields_keyFree hwf
    rcases List.mem_cons.mp hm with he | hm2
    · cases he
      exact hwv
    · exact ih hwr hm2

theorem objSet_self_eq {fs : List (String × JsValue)} {k : String} {v : JsValue}
    (h : objGet fs k = some v) : objSet fs k v = fs := by
  induction fs with
  | nil => simp [objGet] at h
  | cons p rest ih =>
    obtain ⟨k', v'⟩ := p
    by_cases hk : k' = k
    · simp only [objGet, if_pos hk] at h
      simp [objSet, hk, Option.some.inj h]
    · simp only [objGet, if_neg hk] at h
      simp [objSet, hk, ih h]

/-- Structural induction over trees, descending through arrays and
object field values. -/
theorem JsValue.inductionOn {motive : JsValue → Prop}
    (hNull : motive .vNull)
    (hBool : ∀ b, motive (.vBool b))
    (hNum : ∀ n, motive (.vNum n))
    (hStr : ∀ s, motive (.vStr s))
    (hArr : ∀ xs, (∀ x ∈ xs, motive x) → motive (.vArr xs))
    (hObj : ∀ fs, (∀ p ∈ fs, motive p.2) → motive (.vObj fs)) :
    ∀ v, motive v
  | .vNull => hNull
  | .vBool b => hBool b
  | .vNum n => hNum n
  | .vStr s => hStr s
  | .vArr xs => hArr xs (fun x hx =>
      JsValue.inductionOn hNull hBool hNum hStr hArr hObj x)
  | .vObj fs => hObj fs (fun p hp =>
      JsValue.inductionOn hNull hBool hNum hStr hArr hObj p.2)
termination_by v => sizeOf v
decreasing_by
  · have := List.sizeOf_lt_of_mem hx
    simp only [JsValue.vArr.sizeOf_spec]
    omega
  · have h1 := List.sizeOf_lt_of_mem hp
    have h2 : sizeOf p.2 < sizeOf p := by
      obtain ⟨a, b⟩ := p
      simp only [Prod.mk.sizeOf_spec]
      omega
    simp only [JsValue.vObj.sizeOf_spec]
    omega

theorem dmFields_self (rest : List (String × JsValue)) :
    ∀ acc, (∀ p ∈ rest, objGet acc p.1 = some p.2) →
      (∀ p ∈ rest, dmNode (some p.2) p.2 = p.2) → dmFields acc rest = acc := by
  induction rest with
  | nil => intro acc _ _; rfl
  | cons p rest2 ih =>
    intro acc hget hdm
    obtain ⟨k, v⟩ := p
    have h1 : objGet acc k = some v := hget (k, v) (List.mem_cons_self _ _)
    have h2 : dmNode (some v) v = v := hdm (k, v) (List.mem_cons_self _ _)
    show dmFields (objSet acc k (dmNode (objGet acc k) v)) rest2 = acc
    rw [h1, h2, objSet_self_eq h1]
    exact ih acc (fun q hq => hget q (List.mem_cons_of_mem _ hq))
      (fun q hq => hdm q (List.mem_cons_of_mem _ hq))

/-- deepMerge of a well-formed tree with itself returns the same tree
value; the root object, however, is freshly allocated by the source (the
output spread on line 182), which is what the import applied check
observes. -/
theorem dmNode_self (v : JsValue) (hwf : wfVal v = true) :
    dmNode (some v) v = v := by
  induction v using JsValue.inductionOn with
  | hNull => rfl
  | hBool b => rfl
  | hNum n => rfl
  | hStr s => rfl
  | hArr xs _ => rfl
  | hObj fs ih =>
    show JsValue.vObj (dmFields fs fs) = JsValue.vObj fs
    have hwff : wfFields fs = true := hwf
    rw [dmFields_self fs fs
      (fun p hp => objGet_first hwff hp)
      (fun p hp => ih p hp (wfFields_mem_wfVal hwff hp))]

theorem deepMerge_self (v : JsValue) (hwf : wfVal v = true) :
    deepMerge v v = v := dmNode_self v hwf

theorem syncPush_notify_zero (adapters : List SyncAdapter) (st : JsValue) :
    (syncPush adapters st).1.countP Effect.isNotify = 0 := by
  induction adapters with
  | nil => rfl
  | cons a rest ih =>
    cases hpo : a.pushOutcome with
    | throwsSync => simp [syncPush, hpo, List.countP_cons, Effect.isNotify]
    | fulfills => simp [syncPush, hpo, List.countP_cons, Effect.isNotify, ih]
    | rejects =>
      cases hoe : a.hasOnError <;>
        simp [syncPush, hpo, hoe, List.countP_cons, Effect.isNotify, ih]

def c2Store : Store :=
  { initialState := .vObj [("x", .vNum 1)], state := .vObj [("x", .vNum 1)],
    stateRef := 0, freshRef := 1, hasPersistence := false, adapters := [] }

/-- Claim C2 counterexample: importing with strategy merge a tree equal
to the current state returns applied = true (not false) and performs a
commit with a state-change event and a subscriber notification, because
deepMerge always builds a fresh root object, which is never
reference-equal to the current state even when the trees are equal. -/
theorem claim_C2_counterexample :
    importSettings c2Store (.vObj [("x", .vNum 1)]) .merge none =
      .ok (⟨{ c2Store with
                state := .vObj [("x", .vNum 1)]
                stateRef := 1
                freshRef := 2 },
            [.stateChanged .imported (.vObj [("x", .vNum 1)]) (.vObj [("x", .vNum 1)]),
             .notify], false⟩,
           ⟨true, .merge, []⟩) := rfl

/-- Claim C2 (amended): importSettings with strategy merge and an
incoming tree equal to the current state produces a result tree equal to
the current state (the merge is value-idempotent), but — because the
merged tree is a freshly allocated root, never reference-equal to the
current state — it returns applied = true and performs a commit with
exactly one subscriber notification, rather than no commit. -/
theorem claim_C2_amended (s : Store) (hinv : StoreInv s)
    (hwf : wfVal s.state = true) (hobj : isObjectV s.state = true)
    (hnt : NoThrowAdapters s) :
    ∃ r res, importSettings s s.state .merge none = .ok (r, res) ∧
      r.store.state = s.state ∧ res.applied = true ∧
      r.effects.countP Effect.isNotify = 1 ∧ r.threw = false := by
  have hne : s.freshRef ≠ s.stateRef := by have := hinv.1; omega
  have hq : (syncPush s.adapters s.state).2 = false := syncPush_noThrow _ _ hnt
  have happ : (!(s.freshRef == s.stateRef)) = true := by
    simp [Nat.beq_eq_true_eq, hne]
  have key := commitState_eq_of_ne s s.state Source.imported true hne hq
  refine ⟨⟨{ s with
        state := s.state
        stateRef := s.freshRef
        freshRef := max s.freshRef (s.freshRef + 1) },
      (if true && s.hasPersistence then [Effect.save s.state] else []) ++
        (syncPush s.adapters s.state).1 ++
        [Effect.stateChanged Source.imported s.state s.state, Effect.notify], false⟩,
    ⟨true, Strategy.merge, []⟩, ?_, rfl, rfl, ?_, rfl⟩
  · simp only [importSettings, hobj, Bool.not_true, Bool.false_eq_true, if_false,
      deepMerge_self s.state hwf, happ, if_true, key]
  · simp only [List.countP_append, syncPush_notify_zero]
    cases s.hasPersistence <;>
      simp [List.countP_cons, Effect.isNotify]

def c2bStore : Store :=
  { initialState := .vObj [("x", .vNum 1)], state := .vObj [("x", .vNum 1), ("y", .vArr [.vNum 2])],
    stateRef := 1, freshRef := 2, hasPersistence := true,
    adapters := [⟨4, .rejects, true⟩] }

/-- Witness for claim C2 (amended) at a concrete store with persistence
and a rejecting adapter. -/
theorem claim_C2_witness :
    ∃ r res, importSettings c2bStore c2bStore.state .merge none = .ok (r, res) ∧
      r.store.state = c2bStore.state ∧ res.applied = true ∧
      r.effects.countP Effect.isNotify = 1 ∧ r.threw = false :=
  claim_C2_amended c2bStore
    (by unfold StoreInv; exact ⟨by decide, by intro h; simp [c2bStore] at h, by decide⟩)
    (by decide) (by decide)
    (by intro b hb; fin_cases hb <;> decide)


/-! ## Claim C3: the skip-conflicts merge -/

/-- A path segment that round-trips through the conflict path strings:
nonempty and containing no dot (a dotted or empty object key would make
the dot-joined conflict strings ambiguous). -/
def goodString (k : String) : Bool :=
  (k != "") && k.data.all (fun c => c != '.')

mutual
/-- Every object key in the tree is a good path segment. -/
def goodKeysV : JsValue → Bool
  | .vNull => true
  | .vBool _ => true
  | .vNum _ => true
  | .vStr _ => true
  | .vArr xs => goodKeysList xs
  | .vObj fs => goodKeysFields fs

def goodKeysList : List JsValue → Bool
  | [] => true
  | x :: rest => goodKeysV x && goodKeysList rest

def goodKeysFields : List (String × JsValue) → Bool
  | [] => true
  | (k, v) :: rest => goodString k && goodKeysV v && goodKeysFields rest
end

/-- The recursion of mergeSkippingConflicts examines the pair of values
at a path exactly when every proper prefix resolves, on both sides, to
an object through existing keys. -/
def ReachesObjs : JsValue → JsValue → List String → Prop
  | l, r, [] => (∃ lfs, l = JsValue.vObj lfs) ∧ (∃ rfs, r = JsValue.vObj rfs)
  | l, r, k :: rest => ∃ lfs rfs lv rv, l = JsValue.vObj lfs ∧ r = JsValue.vObj rfs ∧
      objGet lfs k = some lv ∧ objGet rfs k = some rv ∧ ReachesObjs lv rv rest

/-- A walk from an optional starting value (undefined walks nowhere). -/
def walkOpt : Option JsValue → List String → Option JsValue
  | none, _ => none
  | some v, qs => getParts v qs

theorem jsIs_vObj_left (fs : List (String × JsValue)) (r : JsValue) :
    jsIs (JsValue.vObj fs) r = false := by
  cases r <;> rfl

theorem objGet_mem {fs : List (String × JsValue)} {k : String} {v : JsValue}
    (h : objGet fs k = some v) : (k, v) ∈ fs := by
  induction fs with
  | nil => simp [objGet] at h
  | cons p rest ih =>
    obtain ⟨k', v'⟩ := p
    by_cases hk : k' = k
    · subst hk
      simp only [objGet, if_pos rfl] at h
      exact (Option.some.inj h) ▸ List.mem_cons_self _ _
    · simp only [objGet, if_neg hk] at h
      exact List.mem_cons_of_mem _ (ih h)

theorem keyFree_objGet_none {k : String} {fs : List (String × JsValue)}
    (h : keyFree k fs = true) : objGet fs k = none := by
  induction fs with
  | nil => rfl
  | cons p rest ih =>
    obtain ⟨k', v'⟩ := p
    simp only [keyFree, Bool.and_eq_true, bne_iff_ne] at h
    simp [objGet, h.1, ih h.2]

theorem goodKeysFields_mem {fs : List (String × JsValue)}
    (h : goodKeysFields fs = true) {k : String} {v : JsValue} (hm : (k, v) ∈ fs) :
    goodString k = true ∧ goodKeysV v = true := by
  induction fs with
  | nil => exact absurd hm (List.not_mem_nil _)
  | cons p rest ih =>
    obtain ⟨k', v'⟩ := p
    simp only [goodKeysFields, Bool.and_eq_true] at h
    rcases List.mem_cons.mp hm with he | hm2
    · cases he
      exact ⟨h.1.1, h.1.2⟩
    · exact ih h.2 hm2

/-- Along any chain that resolves in a tree with good keys, every
segment is a good path segment. -/
theorem good_chain {v : JsValue} (hg : goodKeysV v = true) :
    ∀ qs : List String, getParts v qs ≠ none → ∀ x ∈ qs, goodString x = true := by
  intro qs
  induction qs generalizing v with
  | nil => intro _ x hx; exact absurd hx (List.not_mem_nil _)
  | cons k rest ih =>
    intro hne x hx
    cases v with
    | vObj fs =>
      have hg2 : goodKeysFields fs = true := hg
      cases hk : objGet fs k with
      | some next =>
        have hmem := objGet_mem hk
        have hgood := goodKeysFields_mem hg2 hmem
        have hrest : getParts next rest ≠ none := by
          intro hc
          exact hne (by simp [getParts, hk, hc])
        rcases List.mem_cons.mp hx with he | hx2
        · exact he ▸ hgood.1
        · exact ih hgood.2 hrest x hx2
      | none => exact absurd (by simp [getParts, hk]) hne
    | vNull => exact absurd rfl hne
    | vBool b => exact absurd rfl hne
    | vNum n => exact absurd rfl hne
    | vStr s => exact absurd rfl hne
    | vArr xs => exact absurd rfl hne

theorem scFields_get_of_none (rfs : List (String × JsValue)) :
    ∀ (acc : List (String × JsValue)) (path k : String), objGet rfs k = none →
      objGet (scFields acc rfs path).1 k = objGet acc k := by
  induction rfs with
  | nil => intro acc path k _; rfl
  | cons p rest ih =>
    obtain ⟨k', v'⟩ := p
    intro acc path k hk
    have hk2 : k' ≠ k := by
      intro he
      simp [objGet, he] at hk
    have hkr : objGet rest k = none := by
      simpa [objGet, hk2] using hk
    show objGet (scFields (objSet acc k'
      (scNode (objGet acc k') v' (nextPath path k')).1) rest path).1 k = objGet acc k
    rw [ih _ path k hkr, objGet_objSet_ne _ _ hk2]

theorem scFields_get_of_mem (rfs : List (String × JsValue)) :
    ∀ (acc : List (String × JsValue)) (path k : String) (v : JsValue),
      wfFields rfs = true → objGet rfs k = some v →
      objGet (scFields acc rfs path).1 k =
        some (scNode (objGet acc k) v (nextPath path k)).1 := by
  induction rfs with
  | nil => intro _ _ _ _ _ hk; simp [objGet] at hk
  | cons p rest ih =>
    obtain ⟨k', v'⟩ := p
    intro acc path k v hwf hk
    obtain ⟨hkf, hwv, hwr⟩ := wfFields_keyFree hwf
    by_cases hk2 : k' = k
    · have hv : v' = v := by
        have h2 := hk
        simp only [objGet, if_pos hk2] at h2
        exact Option.some.inj h2
      show objGet (scFields (objSet acc k'
        (scNode (objGet acc k') v' (nextPath path k')).1) rest path).1 k =
        some (scNode (objGet acc k) v (nextPath path k)).1
      rw [hk2, hv]
      rw [scFields_get_of_none rest _ path k (keyFree_objGet_none (hk2 ▸ hkf)),
        objGet_objSet_self]
    · simp only [objGet, if_neg hk2] at hk
      show objGet (scFields (objSet acc k'
        (scNode (objGet acc k') v' (nextPath path k')).1) rest path).1 k =
        some (scNode (objGet acc k) v (nextPath path k)).1
      rw [ih _ path k v hwr hk, objGet_objSet_ne _ _ hk2]

theorem scFields_mem_conflicts (rfs : List (String × JsValue)) :
    ∀ (acc : List (String × JsValue)) (path k : String) (v : JsValue),
      wfFields rfs = true → objGet rfs k = some v →
      ∀ c ∈ (scNode (objGet acc k) v (nextPath path k)).2,
        c ∈ (scFields acc rfs path).2 := by
  induction rfs with
  | nil => intro _ _ _ _ _ hk; simp [objGet] at hk
  | cons p rest ih =>
    obtain ⟨k', v'⟩ := p
    intro acc path k v hwf hk c hc
    obtain ⟨hkf, hwv, hwr⟩ := wfFields_keyFree hwf
    by_cases hk2 : k' = k
    · have hv : v' = v := by
        have h2 := hk
        simp only [objGet, if_pos hk2] at h2
        exact Option.some.inj h2
      show c ∈ (scNode (objGet acc k') v' (nextPath path k')).2 ++
        (scFields (objSet acc k' (scNode (objGet acc k') v' (nextPath path k')).1)
          rest path).2
      refine List.mem_append_left _ ?_
      rw [hk2, hv]
      exact hc
    · simp only [objGet, if_neg hk2] at hk
      show c ∈ (scNode (objGet acc k') v' (nextPath path k')).2 ++
        (scFields (objSet acc k' (scNode (objGet acc k') v' (nextPath path k')).1)
          rest path).2
      refine List.mem_append_right _ ?_
      refine ih (objSet acc k' (scNode (objGet acc k') v' (nextPath path k')).1)
        path k v hwr hk c ?_
      rwa [objGet_objSet_ne _ _ hk2]


/-- Merging an incoming value over an undefined left side adopts a copy
of the incoming value with no conflict (lines 204, 212, 220). -/
theorem scNode_none (iv : JsValue) (path : String) :
    scNode none iv path = (iv, []) := by
  cases iv <;> simp [scNode, jsIsOpt]

/-- Every conflict the field loop records lies at a chain that exists in
the incoming object and at which the (original) left side is defined. -/
theorem conf_fields (rfs : List (String × JsValue))
    (IH : ∀ p ∈ rfs, wfVal p.2 = true → ∀ (left : Option JsValue) (path c : String),
      c ∈ (scNode left p.2 path).2 →
      ∃ rs, c = rs.foldl nextPath path ∧ walkOpt left rs ≠ none ∧
        getParts p.2 rs ≠ none) :
    ∀ (hwf : wfFields rfs = true) (acc : List (String × JsValue)) (path c : String),
      c ∈ (scFields acc rfs path).2 →
      ∃ k v rs, objGet rfs k = some v ∧ c = rs.foldl nextPath (nextPath path k) ∧
        walkOpt (objGet acc k) rs ≠ none ∧ getParts v rs ≠ none := by
  induction rfs with
  | nil =>
    intro _ acc path c hc
    simp [scFields] at hc
  | cons p rest ihr =>
    obtain ⟨k', v'⟩ := p
    intro hwf acc path c hc
    obtain ⟨hkf, hwv, hwr⟩ := wfFields_keyFree hwf
    have hc2 : c ∈ (scNode (objGet acc k') v' (nextPath path k')).2 ++
        (scFields (objSet acc k' (scNode (objGet acc k') v' (nextPath path k')).1)
          rest path).2 := hc
    rcases List.mem_append.mp hc2 with hc3 | hc3
    · obtain ⟨rs, hcs, hwalk, hget⟩ := IH (k', v') (List.mem_cons_self _ _) hwv
        (objGet acc k') (nextPath path k') c hc3
      refine ⟨k', v', rs, ?_, hcs, hwalk, hget⟩
      simp [objGet]
    · obtain ⟨k, v, rs, hkk, hcs, hwalk, hget⟩ :=
        ihr (fun q hq => IH q (List.mem_cons_of_mem _ hq)) hwr _ path c hc3
      have hkne : k' ≠ k := by
        intro he
        exact keyFree_not_mem (he ▸ hkf) (objGet_mem hkk)
      refine ⟨k, v, rs, ?_, hcs, ?_, hget⟩
      · simp [objGet, hkne, hkk]
      · rwa [objGet_objSet_ne _ _ hkne] at hwalk

/-- Every conflict mergeSkippingConflicts records lies at a chain that
exists in the incoming tree and at which the left side is defined. -/
theorem conf_node (right : JsValue) :
    wfVal right = true → ∀ (left : Option JsValue) (path c : String),
      c ∈ (scNode left right path).2 →
      ∃ rs, c = rs.foldl nextPath path ∧ walkOpt left rs ≠ none ∧
        getParts right rs ≠ none := by
  induction right using JsValue.inductionOn with
  | hNull =>
    intro _ left path c hc
    match left with
    | none => simp [scNode, jsIsOpt] at hc
    | some l =>
      by_cases hj : jsIs l .vNull = true
      · simp [scNode, jsIsOpt, hj] at hc
      · have hcp : c = path := by simpa [scNode, jsIsOpt, hj] using hc
        exact ⟨[], hcp, by simp [walkOpt, getParts], by simp [getParts]⟩
  | hBool b =>
    intro _ left path c hc
    match left with
    | none => simp [scNode, jsIsOpt] at hc
    | some l =>
      by_cases hj : jsIs l (.vBool b) = true
      · simp [scNode, jsIsOpt, hj] at hc
      · have hcp : c = path := by simpa [scNode, jsIsOpt, hj] using hc
        exact ⟨[], hcp, by simp [walkOpt, getParts], by simp [getParts]⟩
  | hNum n =>
    intro _ left path c hc
    match left with
    | none => simp [scNode, jsIsOpt] at hc
    | some l =>
      by_cases hj : jsIs l (.vNum n) = true
      · simp [scNode, jsIsOpt, hj] at hc
      · have hcp : c = path := by simpa [scNode, jsIsOpt, hj] using hc
        exact ⟨[], hcp, by simp [walkOpt, getParts], by simp [getParts]⟩
  | hStr s =>
    intro _ left path c hc
    match left with
    | none => simp [scNode, jsIsOpt] at hc
    | some l =>
      by_cases hj : jsIs l (.vStr s) = true
      · simp [scNode, jsIsOpt, hj] at hc
      · have hcp : c = path := by simpa [scNode, jsIsOpt, hj] using hc
        exact ⟨[], hcp, by simp [walkOpt, getParts], by simp [getParts]⟩
  | hArr xs _ =>
    intro _ left path c hc
    match left with
    | none => simp [scNode, jsIsOpt] at hc
    | some l =>
      by_cases hj : jsIs l (.vArr xs) = true
      · simp [scNode, jsIsOpt, hj] at hc
      · have hcp : c = path := by simpa [scNode, jsIsOpt, hj] using hc
        exact ⟨[], hcp, by simp [walkOpt, getParts], by simp [getParts]⟩
  | hObj fs ihf =>
    intro hwf left path c hc
    match left with
    | none => simp [scNode, jsIsOpt, scNode_none] at hc
    | some (.vObj lfs) =>
      have hc2 : c ∈ (scFields lfs fs path).2 := by
        simpa [scNode, jsIsOpt, jsIs_vObj_left] using hc
      obtain ⟨k, v, rs, hk, hcs, hwalk, hget⟩ :=
        conf_fields fs ihf hwf lfs path c hc2
      refine ⟨k :: rs, ?_, ?_, ?_⟩
      · rw [List.foldl_cons]
        exact hcs
      · cases hl : objGet lfs k with
        | none =>
          rw [hl] at hwalk
          exact absurd rfl hwalk
        | some l =>
          rw [hl] at hwalk
          simpa [walkOpt, getParts, hl] using hwalk
      · simpa [getParts, hk] using hget
    | some .vNull =>
      have hcp : c = path := by simpa [scNode, jsIsOpt, jsIs] using hc
      exact ⟨[], hcp, by simp [walkOpt, getParts], by simp [getParts]⟩
    | some (.vBool b) =>
      have hcp : c = path := by simpa [scNode, jsIsOpt, jsIs] using hc
      exact ⟨[], hcp, by simp [walkOpt, getParts], by simp [getParts]⟩
    | some (.vNum n) =>
      have hcp : c = path := by simpa [scNode, jsIsOpt, jsIs] using hc
      exact ⟨[], hcp, by simp [walkOpt, getParts], by simp [getParts]⟩
    | some (.vStr s) =>
      have hcp : c = path := by simpa [scNode, jsIsOpt, jsIs] using hc
      exact ⟨[], hcp, by simp [walkOpt, getParts], by simp [getParts]⟩
    | some (.vArr ys) =>
      have hcp : c = path := by simpa [scNode, jsIsOpt, jsIs] using hc
      exact ⟨[], hcp, by simp [walkOpt, getParts], by simp [getParts]⟩

/-! Conflict path strings: dot-joined chains of good segments decode
uniquely. -/

def dotJoin : List String → String
  | [] => ""
  | [k] => k
  | k :: rest => k ++ "." ++ dotJoin rest

theorem goodString_ne_empty {k : String} (h : goodString k = true) : k ≠ "" := by
  simp only [goodString, Bool.and_eq_true, bne_iff_ne] at h
  exact h.1

theorem goodString_no_dot {k : String} (h : goodString k = true) : '.' ∉ k.data := by
  simp only [goodString, Bool.and_eq_true, List.all_eq_true, bne_iff_ne] at h
  intro hm
  exact (h.2 '.' hm) rfl

theorem append_dot_ne_empty (p k : String) : (p ++ "." ++ k) ≠ "" := by
  intro he
  have hd : (p ++ "." ++ k).data = ([] : List Char) := by
    rw [he]
  simp [String.data_append] at hd

theorem foldl_nextPath_ne (ks : List String) :
    ∀ p : String, p ≠ "" → ks ≠ [] →
      ks.foldl nextPath p = p ++ "." ++ dotJoin ks := by
  induction ks with
  | nil =>
    intro p _ h
    exact absurd rfl h
  | cons k rest ih =>
    intro p hp _
    rw [List.foldl_cons]
    have hnp : nextPath p k = p ++ "." ++ k := by simp [nextPath, hp]
    cases rest with
    | nil =>
      simp only [List.foldl_nil, hnp]
      rfl
    | cons r2 rrest =>
      rw [ih (nextPath p k) (by rw [hnp]; exact append_dot_ne_empty p k) (by simp),
        hnp]
      show p ++ "." ++ k ++ "." ++ dotJoin (r2 :: rrest) =
        p ++ "." ++ (k ++ "." ++ dotJoin (r2 :: rrest))
      apply String.ext
      simp [String.data_append]

theorem foldl_nextPath_root (ks : List String) (h : ks ≠ [])
    (hg : ∀ x ∈ ks, goodString x = true) :
    ks.foldl nextPath "" = dotJoin ks := by
  cases ks with
  | nil => exact absurd rfl h
  | cons k rest =>
    rw [List.foldl_cons]
    have h1 : nextPath "" k = k := by simp [nextPath]
    rw [h1]
    have hk : k ≠ "" := goodString_ne_empty (hg k (List.mem_cons_self _ _))
    cases rest with
    | nil => rfl
    | cons r rrest =>
      rw [foldl_nextPath_ne (r :: rrest) k hk (by simp)]
      rfl

theorem dotJoin_ne_empty (ks : List String) (hne : ks ≠ [])
    (hg : ∀ x ∈ ks, goodString x = true) : dotJoin ks ≠ "" := by
  cases ks with
  | nil => exact absurd rfl hne
  | cons k rest =>
    cases rest with
    | nil => exact goodString_ne_empty (hg k (List.mem_cons_self _ _))
    | cons r rr => exact append_dot_ne_empty k (dotJoin (r :: rr))

theorem chars_dot_split : ∀ (a b s t : List Char),
    '.' ∉ a → '.' ∉ b → a ++ '.' :: s = b ++ '.' :: t → a = b ∧ s = t := by
  intro a
  induction a with
  | nil =>
    intro b s t _ hb he
    cases b with
    | nil => simpa using he
    | cons c bs =>
      exfalso
      simp only [List.nil_append, List.cons_append, List.cons.injEq] at he
      refine hb ?_
      rw [← he.1]
      exact List.mem_cons_self _ _
  | cons c as ih =>
    intro b s t ha hb he
    cases b with
    | nil =>
      exfalso
      simp only [List.cons_append, List.nil_append, List.cons.injEq] at he
      refine ha ?_
      rw [he.1]
      exact List.mem_cons_self _ _
    | cons c2 bs =>
      simp only [List.cons_append, List.cons.injEq] at he
      have has : '.' ∉ as := fun hm => ha (List.mem_cons_of_mem _ hm)
      have hbs : '.' ∉ bs := fun hm => hb (List.mem_cons_of_mem _ hm)
      obtain ⟨h1, h2⟩ := he
      obtain ⟨h3, h4⟩ := ih bs s t has hbs h2
      exact ⟨by rw [h1, h3], h4⟩

theorem dotJoin_data_cons (x : String) (r : String) (rest : List String) :
    (dotJoin (x :: r :: rest)).data = x.data ++ '.' :: (dotJoin (r :: rest)).data := by
  show (x ++ "." ++ dotJoin (r :: rest)).data = _
  simp [String.data_append]

theorem dotJoin_inj : ∀ (xs ys : List String),
    (∀ x ∈ xs, goodString x = true) → (∀ y ∈ ys, goodString y = true) →
    xs ≠ [] → ys ≠ [] → dotJoin xs = dotJoin ys → xs = ys := by
  intro xs
  induction xs with
  | nil =>
    intro ys _ _ h
    exact absurd rfl h
  | cons x xs2 ih =>
    intro ys hgx hgy _ hys he
    cases ys with
    | nil => exact absurd rfl hys
    | cons y ys2 =>
      cases xs2 with
      | nil =>
        cases ys2 with
        | nil =>
          have : x = y := he
          rw [this]
        | cons y2 yr =>
          exfalso
          have hd : x.data = y.data ++ '.' :: (dotJoin (y2 :: yr)).data := by
            have h2 := congrArg String.data he
            rwa [dotJoin_data_cons] at h2
          have hmem : '.' ∈ x.data := by
            rw [hd]
            simp
          exact goodString_no_dot (hgx x (List.mem_cons_self _ _)) hmem
      | cons x2 xr =>
        cases ys2 with
        | nil =>
          exfalso
          have hd : y.data = x.data ++ '.' :: (dotJoin (x2 :: xr)).data := by
            have h2 := congrArg String.data he.symm
            rwa [dotJoin_data_cons] at h2
          have hmem : '.' ∈ y.data := by
            rw [hd]
            simp
          exact goodString_no_dot (hgy y (List.mem_cons_self _ _)) hmem
        | cons y2 yr =>
          have hd : x.data ++ '.' :: (dotJoin (x2 :: xr)).data =
              y.data ++ '.' :: (dotJoin (y2 :: yr)).data := by
            have h2 := congrArg String.data he
            rwa [dotJoin_data_cons, dotJoin_data_cons] at h2
          obtain ⟨h1, h2⟩ := chars_dot_split x.data y.data _ _
            (goodString_no_dot (hgx x (List.mem_cons_self _ _)))
            (goodString_no_dot (hgy y (List.mem_cons_self _ _))) hd
          have hx : x = y := String.ext h1
          have hj : dotJoin (x2 :: xr) = dotJoin (y2 :: yr) := String.ext h2
          have hrec := ih (y2 :: yr) (fun a ha => hgx a (List.mem_cons_of_mem _ ha))
            (fun a ha => hgy a (List.mem_cons_of_mem _ ha)) (by simp) (by simp) hj
          rw [hx, hrec]


/-- A terminal disagreement (not both objects, not Object.is-equal) with
a defined left value keeps the left value and records the path. -/
theorem scNode_terminal_keep (cv iv : JsValue) (path : String)
    (hno : ¬(isObjectV cv = true ∧ isObjectV iv = true))
    (hjs : jsIs cv iv = false) :
    scNode (some cv) iv path = (cv, [path]) := by
  cases iv with
  | vArr xs => simp [scNode, jsIsOpt, hjs]
  | vObj rfs =>
    have hcno : isObjectV cv = false := by
      cases hcv : isObjectV cv
      · rfl
      · exact absurd ⟨hcv, rfl⟩ hno
    cases cv with
    | vObj lfs => simp [isObjectV] at hcno
    | vNull => simp [scNode, jsIsOpt, jsIs]
    | vBool b => simp [scNode, jsIsOpt, jsIs]
    | vNum n => simp [scNode, jsIsOpt, jsIs]
    | vStr s => simp [scNode, jsIsOpt, jsIs]
    | vArr xs => simp [scNode, jsIsOpt, jsIs]
  | vNull => simp [scNode, jsIsOpt, hjs]
  | vBool b => simp [scNode, jsIsOpt, hjs]
  | vNum n => simp [scNode, jsIsOpt, hjs]
  | vStr s => simp [scNode, jsIsOpt, hjs]

/-- Two object nodes (never Object.is-equal in this embedding) merge
field by field. -/
theorem scNode_obj_obj (lfs rfs : List (String × JsValue)) (path : String) :
    scNode (some (JsValue.vObj lfs)) (JsValue.vObj rfs) path =
      (JsValue.vObj (scFields lfs rfs path).1, (scFields lfs rfs path).2) := by
  simp [scNode, jsIsOpt, jsIs_vObj_left]

/-- Part (a) of the amended claim, generalized over the starting path:
at every reached pair of defined values that disagree terminally, the
merge keeps the current value and records the dot-joined path. -/
theorem scNode_keep :
    ∀ (qs : List String) (current incoming : JsValue) (path k : String)
      (cv iv : JsValue), wfVal incoming = true →
      ReachesObjs current incoming qs →
      getParts current (qs ++ [k]) = some cv →
      getParts incoming (qs ++ [k]) = some iv →
      ¬(isObjectV cv = true ∧ isObjectV iv = true) →
      jsIs cv iv = false →
      getParts (scNode (some current) incoming path).1 (qs ++ [k]) = some cv ∧
        (qs ++ [k]).foldl nextPath path ∈ (scNode (some current) incoming path).2 := by
  intro qs
  induction qs with
  | nil =>
    intro current incoming path k cv iv hwf hre hgc hgi hno hjs
    obtain ⟨⟨lfs, rfl⟩, ⟨rfs, rfl⟩⟩ := hre
    have hck : objGet lfs k = some cv := by
      cases hl : objGet lfs k with
      | none => simp [getParts, hl] at hgc
      | some l =>
        simp only [List.nil_append, getParts, hl] at hgc
        rw [hgc]
    have hik : objGet rfs k = some iv := by
      cases hl : objGet rfs k with
      | none => simp [getParts, hl] at hgi
      | some l =>
        simp only [List.nil_append, getParts, hl] at hgi
        rw [hgi]
    rw [scNode_obj_obj]
    have hget := scFields_get_of_mem rfs lfs path k iv hwf hik
    rw [hck, scNode_terminal_keep cv iv (nextPath path k) hno hjs] at hget
    constructor
    · simp [getParts, hget]
    · have hmem := scFields_mem_conflicts rfs lfs path k iv hwf hik
      rw [hck, scNode_terminal_keep cv iv (nextPath path k) hno hjs] at hmem
      have := hmem (nextPath path k) (List.mem_cons_self _ _)
      simpa [List.foldl_cons] using this
  | cons q qs2 ih =>
    intro current incoming path k cv iv hwf hre hgc hgi hno hjs
    obtain ⟨lfs, rfs, lv, rv, rfl, rfl, hlq, hrq, hre2⟩ := hre
    have hwv : wfVal rv = true := wfFields_mem_wfVal hwf (objGet_mem hrq)
    have hgc2 : getParts lv (qs2 ++ [k]) = some cv := by
      simpa [getParts, hlq] using hgc
    have hgi2 : getParts rv (qs2 ++ [k]) = some iv := by
      simpa [getParts, hrq] using hgi
    obtain ⟨ihres, ihmem⟩ := ih lv rv (nextPath path q) k cv iv hwv hre2 hgc2 hgi2 hno hjs
    rw [scNode_obj_obj]
    have hget := scFields_get_of_mem rfs lfs path q rv hwf hrq
    rw [hlq] at hget
    constructor
    · simp only [List.cons_append, getParts, hget]
      exact ihres
    · have hmem := scFields_mem_conflicts rfs lfs path q rv hwf hrq
      rw [hlq] at hmem
      have := hmem _ ihmem
      simpa [List.cons_append, List.foldl_cons] using this

/-- Part (b) of the amended claim (the adopted value), generalized over
the starting path: at every reached path defined only in the incoming
tree, the merge adopts the incoming value. -/
theorem scNode_adopt :
    ∀ (qs : List String) (current incoming : JsValue) (path k : String)
      (iv : JsValue), wfVal incoming = true →
      ReachesObjs current incoming qs →
      getParts current (qs ++ [k]) = none →
      getParts incoming (qs ++ [k]) = some iv →
      getParts (scNode (some current) incoming path).1 (qs ++ [k]) = some iv := by
  intro qs
  induction qs with
  | nil =>
    intro current incoming path k iv hwf hre hgc hgi
    obtain ⟨⟨lfs, rfl⟩, ⟨rfs, rfl⟩⟩ := hre
    have hck : objGet lfs k = none := by
      cases hl : objGet lfs k with
      | none => rfl
      | some l => simp [getParts, hl] at hgc
    have hik : objGet rfs k = some iv := by
      cases hl : objGet rfs k with
      | none => simp [getParts, hl] at hgi
      | some l =>
        simp only [List.nil_append, getParts, hl] at hgi
        rw [hgi]
    rw [scNode_obj_obj]
    have hget := scFields_get_of_mem rfs lfs path k iv hwf hik
    rw [hck, scNode_none] at hget
    simp [getParts, hget]
  | cons q qs2 ih =>
    intro current incoming path k iv hwf hre hgc hgi
    obtain ⟨lfs, rfs, lv, rv, rfl, rfl, hlq, hrq, hre2⟩ := hre
    have hwv : wfVal rv = true := wfFields_mem_wfVal hwf (objGet_mem hrq)
    have hgc2 : getParts lv (qs2 ++ [k]) = none := by
      cases hl : getParts lv (qs2 ++ [k]) with
      | none => rfl
      | some l =>
        rw [show getParts (JsValue.vObj lfs) ((q :: qs2) ++ [k]) =
          getParts lv (qs2 ++ [k]) from by simp [getParts, hlq], hl] at hgc
        exact Option.noConfusion hgc
    have hgi2 : getParts rv (qs2 ++ [k]) = some iv := by
      simpa [getParts, hrq] using hgi
    rw [scNode_obj_obj]
    have hget := scFields_get_of_mem rfs lfs path q rv hwf hrq
    rw [hlq] at hget
    simp only [List.cons_append, getParts, hget]
    exact ih lv rv (nextPath path q) k iv hwv hre2 hgc2 hgi2

/-- Part (c) of the amended claim, generalized over the starting path:
values present only in the current tree are preserved by the merge. -/
theorem scNode_preserve :
    ∀ (ps : List String) (current incoming : JsValue) (path : String)
      (cv : JsValue), wfVal incoming = true →
      getParts current ps = some cv → getParts incoming ps = none →
      getParts (scNode (some current) incoming path).1 ps = some cv := by
  intro ps
  induction ps with
  | nil =>
    intro current incoming path cv _ hgc hgi
    simp [getParts] at hgi
  | cons k rest ih =>
    intro current incoming path cv hwf hgc hgi
    cases current with
    | vObj lfs =>
      cases hl : objGet lfs k with
      | none => simp [getParts, hl] at hgc
      | some l =>
        have hgc2 : getParts l rest = some cv := by
          simpa [getParts, hl] using hgc
        cases incoming with
        | vObj rfs =>
          rw [scNode_obj_obj]
          cases hr : objGet rfs k with
          | none =>
            have hget := scFields_get_of_none rfs lfs path k hr
            rw [hl] at hget
            simp only [getParts, hget]
            exact hgc2
          | some r =>
            have hgi2 : getParts r rest = none := by
              cases hx : getParts r rest with
              | none => rfl
              | some y =>
                rw [show getParts (JsValue.vObj rfs) (k :: rest) =
                  getParts r rest from by simp [getParts, hr], hx] at hgi
                exact Option.noConfusion hgi
            have hwr : wfVal r = true := wfFields_mem_wfVal hwf (objGet_mem hr)
            have hget := scFields_get_of_mem rfs lfs path k r hwf hr
            rw [hl] at hget
            simp only [getParts, hget]
            exact ih l r (nextPath path k) cv hwr hgc2 hgi2
        | vNull =>
          rw [show scNode (some (JsValue.vObj lfs)) JsValue.vNull path =
            (JsValue.vObj lfs, [path]) from by simp [scNode, jsIsOpt, jsIs_vObj_left]]
          exact hgc
        | vBool b =>
          rw [show scNode (some (JsValue.vObj lfs)) (JsValue.vBool b) path =
            (JsValue.vObj lfs, [path]) from by simp [scNode, jsIsOpt, jsIs_vObj_left]]
          exact hgc
        | vNum n =>
          rw [show scNode (some (JsValue.vObj lfs)) (JsValue.vNum n) path =
            (JsValue.vObj lfs, [path]) from by simp [scNode, jsIsOpt, jsIs_vObj_left]]
          exact hgc
        | vStr s =>
          rw [show scNode (some (JsValue.vObj lfs)) (JsValue.vStr s) path =
            (JsValue.vObj lfs, [path]) from by simp [scNode, jsIsOpt, jsIs_vObj_left]]
          exact hgc
        | vArr xs =>
          rw [show scNode (some (JsValue.vObj lfs)) (JsValue.vArr xs) path =
            (JsValue.vObj lfs, [path]) from by simp [scNode, jsIsOpt, jsIs_vObj_left]]
          exact hgc
    | vNull => simp [getParts] at hgc
    | vBool b => simp [getParts] at hgc
    | vNum n => simp [getParts] at hgc
    | vStr s => simp [getParts] at hgc
    | vArr xs => simp [getParts] at hgc

/-- Claim C3 counterexample: with current x set to the scalar 1 and
incoming x an object containing a, the path x.a is defined only in the
incoming tree, yet the merge does not adopt incoming's value there: the
whole incoming branch is rejected as a conflict at x (keeping current's
scalar), so the result has no value at x.a at all, and the recorded
conflict list is the path x, not x.a. -/
theorem claim_C3_counterexample :
    getParts (JsValue.vObj [("x", .vNum 1)]) ["x", "a"] = none ∧
    getParts (JsValue.vObj [("x", .vObj [("a", .vNum 2)])]) ["x", "a"] =
      some (.vNum 2) ∧
    (mergeSkippingConflicts (.vObj [("x", .vNum 1)])
      (.vObj [("x", .vObj [("a", .vNum 2)])])).2 = ["x"] ∧
    getParts (mergeSkippingConflicts (.vObj [("x", .vNum 1)])
      (.vObj [("x", .vObj [("a", .vNum 2)])])).1 ["x", "a"] = none :=
  ⟨rfl, rfl, rfl, rfl⟩

/-- Claim C3 (amended): over trees whose object keys are nonempty and
dot-free (so conflict path strings decode uniquely) and an incoming tree
with JavaScript-unique keys, restricted to the paths the recursive walk
actually examines (every proper prefix resolves to an object on both
sides): (a) where both sides hold defined values that are not both
objects and are not Object.is-equal, the merge keeps current's value and
records the dot-joined path as a conflict; (b) where only the incoming
tree holds a value, the merge adopts it and records no conflict for that
path; and (c) every value at a path absent from the incoming tree is
preserved unchanged, whether or not the walk reaches it.  Deeper inside
a rejected branch — below a conflict at a non-object pair — incoming
values are not adopted (see the counterexample). -/
theorem claim_C3_amended (current incoming : JsValue)
    (hwf : wfVal incoming = true) (hgood : goodKeysV incoming = true) :
    (∀ qs k cv iv, ReachesObjs current incoming qs →
      getParts current (qs ++ [k]) = some cv →
      getParts incoming (qs ++ [k]) = some iv →
      ¬(isObjectV cv = true ∧ isObjectV iv = true) →
      jsIs cv iv = false →
      getParts (mergeSkippingConflicts current incoming).1 (qs ++ [k]) = some cv ∧
        (qs ++ [k]).foldl nextPath "" ∈ (mergeSkippingConflicts current incoming).2) ∧
    (∀ qs k iv, ReachesObjs current incoming qs →
      getParts current (qs ++ [k]) = none →
      getParts incoming (qs ++ [k]) = some iv →
      getParts (mergeSkippingConflicts current incoming).1 (qs ++ [k]) = some iv ∧
        (qs ++ [k]).foldl nextPath "" ∉ (mergeSkippingConflicts current incoming).2) ∧
    (∀ ps cv, getParts current ps = some cv →
      getParts incoming ps = none →
      getParts (mergeSkippingConflicts current incoming).1 ps = some cv) := by
  refine ⟨?_, ?_, ?_⟩
  · intro qs k cv iv hre hgc hgi hno hjs
    exact scNode_keep qs current incoming "" k cv iv hwf hre hgc hgi hno hjs
  · intro qs k iv hre hgc hgi
    refine ⟨scNode_adopt qs current incoming "" k iv hwf hre hgc hgi, ?_⟩
    intro hmem
    obtain ⟨rs, hstr, hwalk, hget⟩ := conf_node incoming hwf (some current) "" _ hmem
    have hgqk : ∀ x ∈ qs ++ [k], goodString x = true :=
      good_chain hgood (qs ++ [k]) (by simp [hgi])
    have hgrs : ∀ x ∈ rs, goodString x = true := good_chain hgood rs hget
    have hqkne : qs ++ [k] ≠ [] := by simp
    have hrsne : rs ≠ [] := by
      intro h0
      subst h0
      rw [foldl_nextPath_root (qs ++ [k]) hqkne hgqk] at hstr
      exact dotJoin_ne_empty (qs ++ [k]) hqkne hgqk hstr
    rw [foldl_nextPath_root (qs ++ [k]) hqkne hgqk,
      foldl_nextPath_root rs hrsne hgrs] at hstr
    have heq := dotJoin_inj (qs ++ [k]) rs hgqk hgrs hqkne hrsne hstr
    rw [← heq] at hwalk
    exact hwalk (show walkOpt (some current) (qs ++ [k]) = none from hgc)
  · intro ps cv hgc hgi
    exact scNode_preserve ps current incoming "" cv hwf hgc hgi

def c3Current : JsValue := .vObj [("x", .vNum 2), ("z", .vNum 7)]

def c3Incoming : JsValue := .vObj [("x", .vNum 9), ("y", .vNum 5)]

/-- Witness for claim C3 (amended) at spec Scenario C extended: x
conflicts (current kept, conflict recorded), y is adopted with no
conflict, z is preserved. -/
theorem claim_C3_witness :
    (getParts (mergeSkippingConflicts c3Current c3Incoming).1 ([] ++ ["x"]) =
        some (.vNum 2) ∧
      (([] : List String) ++ ["x"]).foldl nextPath "" ∈
        (mergeSkippingConflicts c3Current c3Incoming).2) ∧
    (getParts (mergeSkippingConflicts c3Current c3Incoming).1 ([] ++ ["y"]) =
        some (.vNum 5) ∧
      (([] : List String) ++ ["y"]).foldl nextPath "" ∉
        (mergeSkippingConflicts c3Current c3Incoming).2) ∧
    getParts (mergeSkippingConflicts c3Current c3Incoming).1 ["z"] =
      some (.vNum 7) :=
  ⟨(claim_C3_amended c3Current c3Incoming (by decide) (by decide)).1 [] "x"
      (.vNum 2) (.vNum 9) ⟨⟨_, rfl⟩, ⟨_, rfl⟩⟩ rfl rfl (by simp [isObjectV]) rfl,
   (claim_C3_amended c3Current c3Incoming (by decide) (by decide)).2.1 [] "y"
      (.vNum 5) ⟨⟨_, rfl⟩, ⟨_, rfl⟩⟩ rfl rfl,
   (claim_C3_amended c3Current c3Incoming (by decide) (by decide)).2.2 ["z"]
      (.vNum 7) rfl rfl⟩


end SettingsKit
